import Mathlib

/-!
# labaGO9: users service (`5to6/main.go`)

A shallow embedding of the HTTP handlers of `5to6/main.go` and the properties of
its authentication gate and of its list query.

Conventions of the embedding.

* A Go `string` is a sequence of bytes (`GoString`).  Strings that come out of
  `encoding/json` are valid UTF-8, and are kept as Lean `String`s where the code
  looks at them rune by rune (the validator) or compares them with literals.
* A Go `int` is the 64-bit two's complement integer: values are `Int`s in
  `[-2^63, 2^63)` and arithmetic on them goes through `wrapInt`.
* The collaborators of the handlers (store, JSON body decoder, validator, token
  library, clock) are passed in explicitly: the store and the token library as
  the functions a handler calls, the decoded body as a value, the clock as the
  readings it returns.  A handler run yields an `Outcome`: the response together
  with the store and signing calls made, or a panic.
-/

namespace LabaGo9

/-! ## Go strings and ints -/

deriving instance DecidableEq for Except

/-- A Go string: a sequence of bytes. -/
abbrev GoString := List UInt8

/-- The bytes (UTF-8) of a string literal of the source. -/
def str (s : String) : GoString := s.data.flatMap String.utf8EncodeChar

/-- Two's complement wrap-around of 64-bit `int` arithmetic. -/
def wrapInt (x : Int) : Int := (x + 2 ^ 63) % 2 ^ 64 - 2 ^ 63

/-- The value `math.MaxInt64`. -/
def maxInt : Int := 2 ^ 63 - 1

/-- The value `math.MinInt64`. -/
def minInt : Int := -(2 ^ 63)

/-- The value `math.MaxUint64`. -/
def maxUint64 : Nat := 2 ^ 64 - 1

/-! ## `strconv.Atoi` (Go standard library, 64-bit `int`) -/

/-- The two errors of `strconv`: `ErrSyntax` and `ErrRange`. -/
inductive NumError
  | errSyn
  | errRange
  deriving DecidableEq, Repr

/-- A `(value, error)` pair as returned by the `strconv` functions. -/
structure NumResult where
  val : Int
  err : Option NumError
  deriving DecidableEq, Repr

/-- The digit loop of the fast path of `Atoi`: `ch -= '0'` is byte arithmetic, so a
byte below `'0'` wraps to a value above 9.  The caller guarantees fewer than 19
bytes, so `n*10 + int(ch)` stays below `10^18` and never overflows. -/
def atoiFastLoop : List UInt8 → Int → Option Int
  | [], n => some n
  | c :: cs, n =>
    let ch := (c.toNat + 256 - 48) % 256
    if ch > 9 then none else atoiFastLoop cs (n * 10 + ch)

/-- The function `lower(c)` of `strconv`: `c | ('x' - 'X')`. -/
def lower (c : UInt8) : Nat := c.toNat ||| 32

/-- The digit loop of `ParseUint(s, 10, 64)`: `cutoff` is `maxUint64/10 + 1`; the
test `n1 < n || n1 > maxVal` of the source detects that `n*10 + d` does not fit
in 64 bits. -/
def parseUintLoop : List UInt8 → Nat → Nat × Option NumError
  | [], n => (n, none)
  | c :: cs, n =>
    let d? : Option Nat :=
      if 48 ≤ c.toNat ∧ c.toNat ≤ 57 then some (c.toNat - 48)
      else if 97 ≤ lower c ∧ lower c ≤ 122 then some (lower c - 97 + 10)
      else none
    match d? with
    | none => (0, some .errSyn)
    | some d =>
      if d ≥ 10 then (0, some .errSyn)
      else if n ≥ maxUint64 / 10 + 1 then (maxUint64, some .errRange)
      else
        let n1 := (n * 10 + d) % 2 ^ 64
        if n1 < n * 10 ∨ n1 > maxUint64 then (maxUint64, some .errRange)
        else parseUintLoop cs n1

/-- The call `strconv.ParseUint(s, 10, 64)`. -/
def ParseUint (s : GoString) : Nat × Option NumError :=
  if s = [] then (0, some .errSyn) else parseUintLoop s 0

/-- The call `strconv.ParseInt(s, 10, 0)` with `IntSize = 64`. -/
def ParseInt (s : GoString) : NumResult :=
  match s with
  | [] => ⟨0, some .errSyn⟩
  | c :: cs =>
    let neg := c = 45
    let body := if c = 43 ∨ c = 45 then cs else s
    match ParseUint body with
    | (_, some .errSyn) => ⟨0, some .errSyn⟩
    | (un, _) =>
      let cutoff : Nat := 2 ^ 63
      if ¬ neg ∧ un ≥ cutoff then ⟨(cutoff : Int) - 1, some .errRange⟩
      else if neg ∧ un > cutoff then ⟨-(cutoff : Int), some .errRange⟩
      else ⟨wrapInt (if neg then -(un : Int) else (un : Int)), none⟩

/-- The function `strconv.Atoi`: a fast path for 1 to 18 bytes, `ParseInt` otherwise. -/
def Atoi (s : GoString) : NumResult :=
  match s with
  | [] => ParseInt s
  | c :: cs =>
    if s.length < 19 then
      let digits := if c = 45 ∨ c = 43 then cs else s
      if digits.length < 1 then ⟨0, some .errSyn⟩
      else
        match atoiFastLoop digits 0 with
        | none => ⟨0, some .errSyn⟩
        | some n => ⟨if c = 45 then -n else n, none⟩
    else ParseInt s

/-! ## The store (go-pg) as seen by the handlers -/

/-- The type `User` of the source (JSON-decoded, so its strings are valid UTF-8). -/
structure User where
  ID : Int
  Name : String
  Email : String
  Age : Int
  deriving DecidableEq, Repr

/-- The read built on `db.Model(&users)`: the `Where` conditions added, and the
arguments of `Offset` and `Limit`. -/
structure SelectQuery where
  whereName : Option GoString
  whereAge : Option Int
  offset : Int
  limit : Int
  deriving DecidableEq, Repr

/-- The type `Claims` of the source: `Username`, `Role`, and of the embedded
`jwt.RegisteredClaims` the two fields the program sets, as the whole seconds a
`jwt.NumericDate` stores. -/
structure Claims where
  Username : String
  Role : String
  ExpiresAt : Int
  IssuedAt : Int
  deriving DecidableEq, Repr

/-- The calls a handler makes to its collaborators that change or read the world:
the store calls and the signing of a token. -/
inductive Call
  | select (q : SelectQuery)
  | selectPK (id : Int)
  | insert (u : User)
  | update (id : Int) (u : User)
  | delete (id : Int)
  | sign (c : Claims)
  deriving DecidableEq, Repr

/-! ## Requests and responses -/

/-- The type `url.Values` (and `http.Header`): the values of each key. -/
abbrev Values := GoString → List GoString

/-- The method `Get` of `url.Values` and `http.Header`: the first value of the key,
`""` when there is none. -/
def Values.Get (v : Values) (key : GoString) : GoString :=
  match v key with
  | [] => []
  | x :: _ => x

/-- The method `url.Values.Del`: the same values with the key removed. -/
def Values.Del (v : Values) (key : GoString) : Values :=
  fun k => if k = key then [] else v k

/-- A request as the handlers read it: headers, query string, route variables
(`mux.Vars`) and what `json.NewDecoder(r.Body).Decode` leaves in its target. -/
structure Request (β : Type) where
  header : Values
  query : Values
  vars : GoString → GoString
  body : β

/-- What a handler writes as body. -/
inductive Body
  | text (msg : String)
  | invalid (fields : List String)
  | users (us : List User)
  | user (u : User)
  | token (t : GoString)
  | message (m : String)
  deriving DecidableEq, Repr

/-- What a handler run leaves behind: the response with the calls made on the way,
or a panic (which `net/http` recovers by dropping the connection: no status is
written). -/
inductive Outcome
  | responded (status : Nat) (body : Body) (calls : List Call)
  | panicked
  deriving DecidableEq, Repr

/-! ## `getUsers` -/

/-- The `page` of `getUsers`: `Atoi` of the raw value, 1 on error. -/
def getUsersPage (q : Values) : Int :=
  let r := Atoi (q.Get (str "page"))
  if r.err ≠ none then 1 else r.val

/-- The `limit` of `getUsers`: `Atoi` of the raw value, 10 on error. -/
def getUsersLimit (q : Values) : Int :=
  let r := Atoi (q.Get (str "limit"))
  if r.err ≠ none then 10 else r.val

/-- The read `getUsers` builds: a condition on `name` when the value is non-empty, a
condition on `age` (with whatever `Atoi` returned, its error dropped) when the
value is non-empty, then `Offset((page - 1) * limit).Limit(limit)`. -/
def getUsersQuery (q : Values) : SelectQuery :=
  let name := q.Get (str "name")
  let ageStr := q.Get (str "age")
  let page := getUsersPage q
  let limit := getUsersLimit q
  { whereName := if name ≠ [] then some name else none
    whereAge := if ageStr ≠ [] then some (Atoi ageStr).val else none
    offset := wrapInt (wrapInt (page - 1) * limit)
    limit := limit }

/-- The handler `getUsers`, over the `Select` of the store. -/
def getUsers {β : Type} (dbSelect : SelectQuery → Except String (List User))
    (r : Request β) : Outcome :=
  let query := getUsersQuery r.query
  match dbSelect query with
  | .error e => .responded 500 (.text e) [.select query]
  | .ok users => .responded 200 (.users users) [.select query]

/-- The users a list response carries (none for any other outcome). -/
def Outcome.listed : Outcome → List User
  | .responded 200 (.users us) _ => us
  | _ => []

/-! ### The store of the pagination properties

A fixed-order list of rows, on which `Offset(o).Limit(l)` returns the rows at
positions `[o, o+l)`. -/

/-- The rows at positions `[o, o+l)` of a list (positions start at 0). -/
def rowsAt {α : Type} (rows : List α) (o l : Int) : List α :=
  (rows.take (o + l).toNat).drop o.toNat

/-- The `Select` of the list store: the `Where` conditions, then the window. -/
def listSelect (rows : List User) (q : SelectQuery) : Except String (List User) :=
  let byName := rows.filter (fun u =>
    match q.whereName with
    | none => true
    | some n => decide (str u.Name = n))
  let byAge := byName.filter (fun u =>
    match q.whereAge with
    | none => true
    | some a => decide (u.Age = a))
  .ok (rowsAt byAge q.offset q.limit)

/-! ## `createUser` and `updateUser` -/

/-- The tags `required,min=2,max=100` of `Name`: non-empty, and between 2 and 100
runes. -/
def validName (name : String) : Bool :=
  name ≠ "" && 2 ≤ name.length && name.length ≤ 100

/-- The tags `required,email` of `Email`; the e-mail pattern of the validator is a
parameter. -/
def validEmail (isEmail : String → Bool) (email : String) : Bool :=
  email ≠ "" && isEmail email

/-- The tags `gte=0,lte=130` of `Age`. -/
def validAge (age : Int) : Bool :=
  0 ≤ age && age ≤ 130

/-- The call `validate.Struct(user)` (go-playground/validator) on the tags of `User`:
the fields whose tags fail, in order; the empty list stands for a `nil` error. -/
def validateStruct (isEmail : String → Bool) (u : User) : List String :=
  (if validName u.Name then [] else ["Name"]) ++
  (if validEmail isEmail u.Email then [] else ["Email"]) ++
  (if validAge u.Age then [] else ["Age"])

/-- The handler `createUser`; `r.body` is the `user` variable after `Decode`, whose
error the source drops. -/
def createUser (isEmail : String → Bool) (dbInsert : User → Except String User)
    (r : Request User) : Outcome :=
  let user := r.body
  match validateStruct isEmail user with
  | f :: fs => .responded 400 (.invalid (f :: fs)) []
  | [] =>
    match dbInsert user with
    | .error e => .responded 500 (.text e) [.insert user]
    | .ok stored => .responded 200 (.user stored) [.insert user]

/-- The handler `updateUser`. -/
def updateUser (isEmail : String → Bool) (dbUpdate : Int → User → Except String Unit)
    (r : Request User) : Outcome :=
  let id := (Atoi (r.vars (str "id"))).val
  let user := r.body
  match validateStruct isEmail user with
  | f :: fs => .responded 400 (.invalid (f :: fs)) []
  | [] =>
    let user := { user with ID := id }
    match dbUpdate id user with
    | .error e => .responded 500 (.text e) [.update id user]
    | .ok _ => .responded 200 (.user user) [.update id user]

/-! ## The token library as the handlers call it -/

/-- The ways a token fails verification. -/
inductive TokenError
  | malformed
  | invalidSignature
  | expired
  | usedBeforeIssued
  deriving DecidableEq, Repr

/-- The two entry points of the token library used by the source:
`jwt.NewWithClaims(jwt.SigningMethodHS256, claims).SignedString(key)`, and
`jwt.ParseWithClaims(tokenString, claims, keyFunc)` at a given clock reading
(nanoseconds), which returns the error or the claims and the `Valid` flag. -/
structure JwtLib where
  signedString : Claims → GoString → Except String GoString
  parseWithClaims : GoString → GoString → Int → Except TokenError (Claims × Bool)

/-- The variable `jwtKey` of the source. -/
def jwtKey : GoString := str "your_secret_key"

/-- The type `AuthRequest` of the source. -/
structure AuthRequest where
  Username : String
  Password : String
  deriving DecidableEq, Repr

/-- Nanoseconds in a second. -/
def second : Int := 1000000000

/-- The call `jwt.NewNumericDate(t)`: the time truncated to whole seconds. -/
def NewNumericDate (t : Int) : Int := t / second

/-- The claims `loginHandler` builds: `now1` is the reading of the first
`time.Now()` (for `expirationTime`), `now2` of the second (for `IssuedAt`). -/
def loginClaims (username : String) (now1 now2 : Int) : Claims :=
  let expirationTime := now1 + 30 * (60 * second)
  { Username := username
    Role := "user"
    ExpiresAt := NewNumericDate expirationTime
    IssuedAt := NewNumericDate now2 }

/-- The handler `loginHandler`; `r.body` is `none` when `Decode` fails. -/
def loginHandler (lib : JwtLib) (now1 now2 : Int) (r : Request (Option AuthRequest)) :
    Outcome :=
  match r.body with
  | none => .responded 400 (.text "Invalid request") []
  | some authReq =>
    if authReq.Username = "user" ∧ authReq.Password = "password" then
      let claims := loginClaims authReq.Username now1 now2
      match lib.signedString claims jwtKey with
      | .error _ => .responded 500 (.text "Could not create token") [.sign claims]
      | .ok tokenString => .responded 200 (.token tokenString) [.sign claims]
    else .responded 401 (.text "Unauthorized") []

/-- The middleware `tokenValidMiddleware`: the slice `tokenString[len("Bearer "):]`
panics when the header has fewer than 7 bytes, and is taken without looking at
the 7 bytes it drops. -/
def tokenValidMiddleware {β : Type} (lib : JwtLib) (now : Int)
    (next : Request β → Outcome) (r : Request β) : Outcome :=
  let tokenString := r.header.Get (str "Authorization")
  if tokenString = [] then .responded 401 (.text "Missing authorization header") []
  else if tokenString.length < (str "Bearer ").length then .panicked
  else
    let tokenString := tokenString.drop (str "Bearer ").length
    match lib.parseWithClaims tokenString jwtKey now with
    | .error _ => .responded 401 (.text "Invalid token") []
    | .ok (_, valid) =>
      if ¬ valid then .responded 401 (.text "Invalid token") []
      else next r

/-! ## The token codec -/

/-- The base64url alphabet: the character of a 6-bit value. -/
def b64Char (n : Nat) : UInt8 :=
  if n < 26 then UInt8.ofNat (65 + n)
  else if n < 52 then UInt8.ofNat (97 + (n - 26))
  else if n < 62 then UInt8.ofNat (48 + (n - 52))
  else if n = 62 then 45
  else 95

/-- The base64url alphabet: the 6-bit value of a character. -/
def b64Val (c : UInt8) : Option Nat :=
  let x := c.toNat
  if 65 ≤ x ∧ x ≤ 90 then some (x - 65)
  else if 97 ≤ x ∧ x ≤ 122 then some (x - 97 + 26)
  else if 48 ≤ x ∧ x ≤ 57 then some (x - 48 + 52)
  else if x = 45 then some 62
  else if x = 95 then some 63
  else none

/-- Base64url without padding: 3 bytes give 4 characters, a rest of 2 bytes gives
3 and a rest of 1 byte gives 2. -/
def base64urlEncode : GoString → GoString
  | a :: b :: c :: rest =>
    b64Char (a.toNat / 4) :: b64Char (a.toNat % 4 * 16 + b.toNat / 16) ::
      b64Char (b.toNat % 16 * 4 + c.toNat / 64) :: b64Char (c.toNat % 64) ::
      base64urlEncode rest
  | [a, b] =>
    [b64Char (a.toNat / 4), b64Char (a.toNat % 4 * 16 + b.toNat / 16),
      b64Char (b.toNat % 16 * 4)]
  | [a] => [b64Char (a.toNat / 4), b64Char (a.toNat % 4 * 16)]
  | [] => []

/-- The inverse of `base64urlEncode`; a character outside the alphabet or a single
leftover character has no decoding. -/
def base64urlDecode : GoString → Option GoString
  | c1 :: c2 :: c3 :: c4 :: rest =>
    match b64Val c1, b64Val c2, b64Val c3, b64Val c4, base64urlDecode rest with
    | some v1, some v2, some v3, some v4, some tail =>
      some (UInt8.ofNat (v1 * 4 + v2 / 16) :: UInt8.ofNat (v2 % 16 * 16 + v3 / 4) ::
        UInt8.ofNat (v3 % 4 * 64 + v4) :: tail)
    | _, _, _, _, _ => none
  | [c1, c2, c3] =>
    match b64Val c1, b64Val c2, b64Val c3 with
    | some v1, some v2, some v3 =>
      some [UInt8.ofNat (v1 * 4 + v2 / 16), UInt8.ofNat (v2 % 16 * 16 + v3 / 4)]
    | _, _, _ => none
  | [c1, c2] =>
    match b64Val c1, b64Val c2 with
    | some v1, some v2 => some [UInt8.ofNat (v1 * 4 + v2 / 16)]
    | _, _ => none
  | [_] => none
  | [] => some []

/-- The segments of a token: the pieces between the dots. -/
def splitDots : GoString → List GoString
  | [] => [[]]
  | c :: cs =>
    if c = 46 then [] :: splitDots cs
    else
      match splitDots cs with
      | [] => [[c]]
      | seg :: segs => (c :: seg) :: segs

/-- The parts of the codec the spec names without fixing them: the keyed
message-authentication function (HMAC-SHA256 of a key and a message) and the
canonical byte encoding of the claims with its decoder. -/
structure CodecParams where
  mac : GoString → GoString → GoString
  encodeClaims : Claims → GoString
  decodeClaims : GoString → Option Claims

/-- A codec: parameters whose decoder reads back what the encoder wrote, as a byte
encoding of the claims must. -/
structure Codec extends CodecParams where
  decode_encode : ∀ c : Claims, decodeClaims (encodeClaims c) = some c

/-- The header segment of an HS256 token, before encoding. -/
def jwtHeader : GoString := str "\x7b\"alg\":\"HS256\",\"typ\":\"JWT\"\x7d"

/-- Modelled from the spec: the `issue` of the Token Codec, which the program
takes from the golang-jwt library (not among the sources).  The claims are
serialised, the signature is computed over header and claims, and the token is
`Base64url(header) + "." + Base64url(claims) + "." + Base64url(signature)`. -/
def issue (P : CodecParams) (claims : Claims) (key : GoString) : GoString :=
  let signingInput := base64urlEncode jwtHeader ++ 46 :: base64urlEncode (P.encodeClaims claims)
  signingInput ++ 46 :: base64urlEncode (P.mac key signingInput)

/-- Modelled from the spec: the `verify` of the Token Codec, which the program
takes from the golang-jwt library, version 4 (not among the sources).  The token
is rejected if it does not split into exactly three well-formed segments, if
`now` (here in nanoseconds, compared at second granularity) is at or past
`expiresAt`, or if the signature recomputed over the received header and claims
differs.  The library has one more rejection, which the spec does not list: a
token whose `issuedAt` is later than `now` ("token used before issued"). -/
def verify (P : CodecParams) (token key : GoString) (now : Int) : Except TokenError Claims :=
  match splitDots token with
  | [h, c, s] =>
    match base64urlDecode h, base64urlDecode c, base64urlDecode s with
    | some _, some cb, some sb =>
      match P.decodeClaims cb with
      | none => .error .malformed
      | some claims =>
        if now / second ≥ claims.ExpiresAt then .error .expired
        else if now / second < claims.IssuedAt then .error .usedBeforeIssued
        else if sb ≠ P.mac key (h ++ 46 :: c) then .error .invalidSignature
        else .ok claims
    | _, _, _ => .error .malformed
  | _ => .error .malformed

/-- Modelled from the spec: the token library of the program (golang-jwt, not among
the sources) as the Token Codec of the spec: signing is `issue` and never fails,
parsing is `verify`, with `Valid` set on success. -/
def specLib (P : CodecParams) : JwtLib where
  signedString := fun claims key => .ok (issue P claims key)
  parseWithClaims := fun token key now =>
    match verify P token key now with
    | .error e => .error e
    | .ok claims => .ok (claims, true)

/-! ## Decimal notation -/

/-- One step of reading a decimal number: shift and add the digit. -/
def decStep (n : Nat) (c : UInt8) : Nat := n * 10 + (c.toNat - 48)

/-- The number a string of decimal digits denotes. -/
def decimalValue (ds : GoString) : Nat := ds.foldl decStep 0

/-- Every byte is one of `'0'` to `'9'`. -/
def IsDigits (ds : GoString) : Prop := ∀ c ∈ ds, 48 ≤ c.toNat ∧ c.toNat ≤ 57

instance (ds : GoString) : Decidable (IsDigits ds) := by
  unfold IsDigits
  infer_instance

/-- The string `s` is a decimal notation of the integer `v`: an optional sign `+` or
`-` followed by one or more decimal digits. -/
def IsDecimal (s : GoString) (v : Int) : Prop :=
  ∃ ds, ds ≠ [] ∧ IsDigits ds ∧
    ((s = ds ∧ v = decimalValue ds) ∨ (s = 43 :: ds ∧ v = decimalValue ds) ∨
      (s = 45 :: ds ∧ v = -(decimalValue ds : Int)))

/-- The string `s` is a valid integer for the program: a decimal notation of some
integer that a Go `int` holds. -/
def IsValidInt (s : GoString) : Prop :=
  ∃ v, IsDecimal s v ∧ minInt ≤ v ∧ v ≤ maxInt

/-- What follows the optional sign `+` or `-` of a text. -/
def unsignedPart (s : GoString) : GoString :=
  match s with
  | [] => []
  | c :: cs => if c = 43 ∨ c = 45 then cs else c :: cs

/-- The text begins with `-`. -/
def IsMinus (s : GoString) : Prop := s.head? = some 45

instance (s : GoString) : Decidable (IsMinus s) := by
  unfold IsMinus
  infer_instance

/-- The digits that follow the optional sign, read from the left, leave the range:
a leading run of digits reaches `2^64` (whatever comes after it), or what
follows the sign is a run of digits and nothing else, and the number it denotes
with the sign is outside `[-2^63, 2^63)`. -/
def IsOutOfRange (s : GoString) : Prop :=
  ∃ ds rest, unsignedPart s = ds ++ rest ∧ IsDigits ds ∧
    (2 ^ 64 ≤ decimalValue ds ∨
      (rest = [] ∧ ((¬ IsMinus s ∧ 2 ^ 63 ≤ decimalValue ds) ∨
        (IsMinus s ∧ 2 ^ 63 < decimalValue ds))))

/-- The request asks `getUsers` for page `p` with limit `l` and no filter: these
are the page and limit the handler parses from it, and the `name` and `age`
values are empty. -/
def IsPageRequest (q : Values) (p l : Int) : Prop :=
  getUsersPage q = p ∧ getUsersLimit q = l ∧ q.Get (str "name") = [] ∧ q.Get (str "age") = []

instance (q : Values) (p l : Int) : Decidable (IsPageRequest q p l) := by
  unfold IsPageRequest
  infer_instance

/-- The number of pages of `n` rows at `l` rows a page: `ceil(n/l)`. -/
def pageCount (n : Nat) (l : Int) : Nat := (n + l.toNat - 1) / l.toNat

/-! ## Requests used in the examples -/

/-- The query string `?page=..&limit=..` with the given raw values. -/
def pageLimitQuery (page limit : GoString) : Values :=
  fun k => if k = str "page" then [page] else if k = str "limit" then [limit] else []

/-- The query string with the one key given. -/
def singleQuery (key value : GoString) : Values :=
  fun k => if k = key then [value] else []

/-- The request `GET /users` with the given query string and no headers. -/
def listRequest (query : Values) : Request Unit :=
  { header := fun _ => [], query := query, vars := fun _ => [], body := () }

/-- A store content of `n` rows, with ids 1 to `n`. -/
def sampleRows (n : Nat) : List User :=
  (List.range n).map (fun i => { ID := i + 1, Name := "Al", Email := "al@x.com", Age := 30 })

/-- A request to a protected route with the given `Authorization` header value and
nothing else. -/
def authRequest (authorization : GoString) : Request Unit :=
  { header := singleQuery (str "Authorization") authorization
    query := fun _ => [], vars := fun _ => [], body := () }

/-- The request `POST /login` with the given decoded body. -/
def loginRequest (username password : String) : Request (Option AuthRequest) :=
  { header := fun _ => [], query := fun _ => [], vars := fun _ => []
    body := some ⟨username, password⟩ }

/-- The request `POST /users` (or `PUT /users/1`) with the given decoded body. -/
def userRequest (u : User) : Request User :=
  { header := fun _ => [], query := fun _ => [], vars := fun _ => str "1", body := u }

/-- Codec parameters for the examples: claims are encoded by their position in a
table, and the authentication code of a message is the sum of the bytes of key and
message. -/
def tableCodec (table : List Claims) : CodecParams :=
  { mac := fun key msg => [UInt8.ofNat ((key ++ msg).foldl (fun s b => s + b.toNat) 0)]
    encodeClaims := fun c => [UInt8.ofNat (table.indexOf c)]
    decodeClaims := fun bs =>
      match bs with
      | [i] => table.get? i.toNat
      | _ => none }

/-- The bytes of a number: its digits in base 256, lowest first. -/
def natBytes (n : Nat) : GoString := (Nat.digits 256 n).map UInt8.ofNat

/-- The number of a byte string, read in base 256, lowest digit first. -/
def bytesNat (bs : GoString) : Nat := Nat.ofDigits 256 (bs.map UInt8.toNat)

/-- The fields of the claims, the strings as their code points. -/
def claimsFields (c : Claims) : List Nat × List Nat × Int × Int :=
  (c.Username.data.map Char.toNat, c.Role.data.map Char.toNat, c.ExpiresAt, c.IssuedAt)

/-- The claims of the given fields. -/
def fieldsClaims (t : List Nat × List Nat × Int × Int) : Claims :=
  { Username := String.mk (t.1.map Char.ofNat)
    Role := String.mk (t.2.1.map Char.ofNat)
    ExpiresAt := t.2.2.1
    IssuedAt := t.2.2.2 }

/-- A codec for the examples: the claims are numbered (the fields paired into one
natural number) and the number is written in base 256; the authentication code
of a message is the sum of the bytes of key and message. -/
def numberCodec : Codec where
  mac := fun key msg => [UInt8.ofNat ((key ++ msg).foldl (fun s b => s + b.toNat) 0)]
  encodeClaims := fun c => natBytes (Encodable.encode (claimsFields c))
  decodeClaims := fun bs => (Encodable.decode (bytesNat bs)).map fieldsClaims
  decode_encode := by
    intro c
    have hbytes : ∀ n, bytesNat (natBytes n) = n := by
      intro n
      unfold bytesNat natBytes
      rw [List.map_map]
      have hid : List.map (UInt8.toNat ∘ UInt8.ofNat) (Nat.digits 256 n) =
          List.map id (Nat.digits 256 n) := by
        apply List.map_congr_left
        intro d hd
        exact UInt8.toNat_ofNat_of_lt (Nat.digits_lt_base (by decide) hd)
      rw [hid, List.map_id, Nat.ofDigits_digits]
    have hfields : fieldsClaims (claimsFields c) = c := by
      cases c
      simp [fieldsClaims, claimsFields, List.map_map, Function.comp_def, Char.ofNat_toNat]
    simp only [hbytes, Encodable.encodek, Option.map_some', hfields]

/-- The claims of a login whose two clock reads fall in the same second
(1700000000.5 s and 1700000000.6 s after the epoch). -/
def sampleClaims : Claims := loginClaims "user" 1700000000500000000 1700000000600000000

/-- Claims stamped as issued half an hour after 1700000000 s and expiring an hour
after it. -/
def futureClaims : Claims :=
  { Username := "user", Role := "user", ExpiresAt := 1700003600, IssuedAt := 1700001800 }

/-! ## Facts about Go ints and decimal notation -/

theorem wrapInt_of_range (x : Int) (h1 : minInt ≤ x) (h2 : x ≤ maxInt) : wrapInt x = x := by
  unfold wrapInt
  unfold minInt at h1
  unfold maxInt at h2
  omega

theorem wrapInt_range (x : Int) : minInt ≤ wrapInt x ∧ wrapInt x ≤ maxInt := by
  unfold wrapInt minInt maxInt
  omega

theorem toNat_lt_256 (c : UInt8) : c.toNat < 256 := UInt8.toNat_lt_size c

theorem le_foldl_decStep (ds : GoString) : ∀ n, n ≤ ds.foldl decStep n := by
  induction ds with
  | nil => intro n; simp
  | cons c cs ih =>
    intro n
    have h := ih (decStep n c)
    simp only [List.foldl_cons]
    unfold decStep at h ⊢
    omega

theorem foldl_decStep_lt (ds : GoString) (hd : IsDigits ds) :
    ∀ n, ds.foldl decStep n + 1 ≤ (n + 1) * 10 ^ ds.length := by
  induction ds with
  | nil => intro n; simp
  | cons c cs ih =>
    intro n
    have hc := hd c (List.mem_cons_self c cs)
    have hcs : IsDigits cs := fun x hx => hd x (List.mem_cons_of_mem c hx)
    have h := ih hcs (decStep n c)
    simp only [List.foldl_cons, List.length_cons]
    have h2 : decStep n c + 1 ≤ (n + 1) * 10 := by unfold decStep; omega
    calc cs.foldl decStep (decStep n c) + 1
        ≤ (decStep n c + 1) * 10 ^ cs.length := h
      _ ≤ ((n + 1) * 10) * 10 ^ cs.length := Nat.mul_le_mul_right _ h2
      _ = (n + 1) * 10 ^ (cs.length + 1) := by rw [pow_succ]; ring

theorem decimalValue_lt (ds : GoString) (hd : IsDigits ds) (hl : ds.length ≤ 18) :
    decimalValue ds < 10 ^ 18 := by
  have h := foldl_decStep_lt ds hd 0
  have h2 : 10 ^ ds.length ≤ 10 ^ 18 := Nat.pow_le_pow_right (by decide) hl
  unfold decimalValue
  omega


theorem atoiFastLoop_digits (ds : GoString) (hd : IsDigits ds) :
    ∀ n : Nat, atoiFastLoop ds n = some ((ds.foldl decStep n : Nat) : Int) := by
  induction ds with
  | nil => intro n; simp [atoiFastLoop]
  | cons c cs ih =>
    intro n
    have hc := hd c (List.mem_cons_self c cs)
    have hcs : IsDigits cs := fun x hx => hd x (List.mem_cons_of_mem c hx)
    have hch : (c.toNat + 256 - 48) % 256 = c.toNat - 48 := by omega
    have hle : ¬ (c.toNat - 48 > 9) := by omega
    simp only [atoiFastLoop, hch, hle, if_false, List.foldl_cons]
    have := ih hcs (decStep n c)
    rw [← this]
    congr 1

theorem atoiFastLoop_some (ds : GoString) :
    ∀ (n m : Int), atoiFastLoop ds n = some m → IsDigits ds := by
  induction ds with
  | nil => intro n m _ c hc; simp at hc
  | cons c cs ih =>
    intro n m h
    simp only [atoiFastLoop] at h
    split at h
    · exact absurd h (by simp)
    · rename_i hch
      have hcs := ih _ _ h
      intro x hx
      rcases List.mem_cons.mp hx with rfl | hx
      · have := toNat_lt_256 x
        omega
      · exact hcs x hx


theorem parseUintLoop_digits (ds : GoString) (hd : IsDigits ds) :
    ∀ n, ds.foldl decStep n < 2 ^ 64 → parseUintLoop ds n = (ds.foldl decStep n, none) := by
  induction ds with
  | nil => intro n _; simp [parseUintLoop]
  | cons c cs ih =>
    intro n h
    have hc := hd c (List.mem_cons_self c cs)
    have hcs : IsDigits cs := fun x hx => hd x (List.mem_cons_of_mem c hx)
    simp only [List.foldl_cons] at h ⊢
    have hle := le_foldl_decStep cs (decStep n c)
    have hstep : n * 10 + (c.toNat - 48) < 2 ^ 64 := by
      have hdef : decStep n c = n * 10 + (c.toNat - 48) := rfl
      omega
    have hmod : (n * 10 + (c.toNat - 48)) % 2 ^ 64 = n * 10 + (c.toNat - 48) :=
      Nat.mod_eq_of_lt hstep
    have h1 : ¬ (c.toNat - 48 ≥ 10) := by omega
    have h2 : ¬ (n ≥ maxUint64 / 10 + 1) := by unfold maxUint64; omega
    have h3 : ¬ (n * 10 + (c.toNat - 48) < n * 10 ∨ n * 10 + (c.toNat - 48) > maxUint64) := by
      unfold maxUint64; omega
    simp only [parseUintLoop, hc, and_self, if_true, h1, h2, hmod, h3, if_false]
    exact ih hcs _ h

theorem parseUintLoop_none (ds : GoString) :
    ∀ n v, n < 2 ^ 64 → parseUintLoop ds n = (v, none) →
      IsDigits ds ∧ ds.foldl decStep n < 2 ^ 64 ∧ v = ds.foldl decStep n := by
  induction ds with
  | nil =>
    intro n v hn h
    simp [parseUintLoop] at h
    refine ⟨fun c hc => by simp at hc, by simpa using hn, by simp [h]⟩
  | cons c cs ih =>
    intro n v hn h
    simp only [parseUintLoop] at h
    split at h
    · simp at h
    · rename_i d hd
      split at h
      · simp at h
      · rename_i hd10
        split at h
        · simp at h
        · rename_i hcut
          split at h
          · simp at h
          · rename_i hov
            have hdig : 48 ≤ c.toNat ∧ c.toNat ≤ 57 := by
              by_contra hnd
              simp only [hnd, if_false] at hd
              split at hd
              · simp at hd; omega
              · simp at hd
            simp only [hdig, and_self, if_true, Option.some.injEq] at hd
            subst hd
            have hstep : n * 10 + (c.toNat - 48) < 2 ^ 64 := by
              unfold maxUint64 at hcut hov; omega
            have hmod : (n * 10 + (c.toNat - 48)) % 2 ^ 64 = n * 10 + (c.toNat - 48) :=
              Nat.mod_eq_of_lt hstep
            rw [hmod] at h
            obtain ⟨h1, h2, h3⟩ := ih _ v hstep h
            refine ⟨?_, h2, h3⟩
            intro x hx
            rcases List.mem_cons.mp hx with rfl | hx
            · exact hdig
            · exact h1 x hx

theorem parseUintLoop_err (ds : GoString) :
    ∀ n, ((parseUintLoop ds n).2 = some .errSyn → (parseUintLoop ds n).1 = 0) ∧
      ((parseUintLoop ds n).2 = some .errRange → (parseUintLoop ds n).1 = maxUint64) := by
  induction ds with
  | nil => intro n; simp [parseUintLoop]
  | cons c cs ih =>
    intro n
    simp only [parseUintLoop]
    split
    · simp
    · split
      · simp
      · split
        · simp
        · split
          · simp
          · exact ih _


theorem ParseUint_none (ds : GoString) (v : Nat) :
    ParseUint ds = (v, none) ↔
      ds ≠ [] ∧ IsDigits ds ∧ decimalValue ds < 2 ^ 64 ∧ v = decimalValue ds := by
  unfold ParseUint decimalValue
  constructor
  · intro h
    split at h
    · simp at h
    · rename_i hne
      exact ⟨hne, parseUintLoop_none ds 0 v (by decide) h⟩
  · rintro ⟨hne, hd, hlt, rfl⟩
    simp only [hne, if_false]
    exact parseUintLoop_digits ds hd 0 hlt

theorem ParseUint_err (ds : GoString) :
    ((ParseUint ds).2 = some .errSyn → (ParseUint ds).1 = 0) ∧
      ((ParseUint ds).2 = some .errRange → (ParseUint ds).1 = maxUint64) := by
  unfold ParseUint
  split
  · simp
  · exact parseUintLoop_err ds 0

theorem digit_ne_sign (c : UInt8) (h : 48 ≤ c.toNat ∧ c.toNat ≤ 57) : c ≠ 43 ∧ c ≠ 45 := by
  constructor
  · rintro rfl
    revert h
    decide
  · rintro rfl
    revert h
    decide

/-- The three shapes of the result of `ParseInt` on a non-empty string, by the
result of `ParseUint` on what follows the sign. -/
theorem ParseInt_cons (c : UInt8) (cs : GoString) :
    ParseInt (c :: cs) =
      (let body := if c = 43 ∨ c = 45 then cs else c :: cs
       let r := ParseUint body
       if r.2 = some .errSyn then ⟨0, some .errSyn⟩
       else if ¬ (c = 45) ∧ r.1 ≥ 2 ^ 63 then ⟨2 ^ 63 - 1, some .errRange⟩
       else if c = 45 ∧ r.1 > 2 ^ 63 then ⟨-(2 ^ 63), some .errRange⟩
       else ⟨wrapInt (if c = 45 then -(r.1 : Int) else (r.1 : Int)), none⟩) := by
  simp only [ParseInt]
  generalize ParseUint (if c = 43 ∨ c = 45 then cs else c :: cs) = r
  obtain ⟨un, e⟩ := r
  cases e with
  | none => simp
  | some e =>
    cases e <;> simp


theorem ParseInt_none (s : GoString) (v : Int) :
    ParseInt s = ⟨v, none⟩ ↔ IsDecimal s v ∧ minInt ≤ v ∧ v ≤ maxInt := by
  constructor
  · intro h
    cases s with
    | nil => simp [ParseInt] at h
    | cons c cs =>
      rw [ParseInt_cons] at h
      simp only at h
      generalize hb : (if c = 43 ∨ c = 45 then cs else c :: cs) = body at h
      generalize hr : ParseUint body = r at h
      obtain ⟨un, e⟩ := r
      have herr := ParseUint_err body
      rw [hr] at herr
      simp only at h herr
      by_cases h1 : e = some NumError.errSyn
      · rw [if_pos h1] at h; simp at h
      rw [if_neg h1] at h
      by_cases h2 : ¬ (c = 45) ∧ un ≥ 2 ^ 63
      · rw [if_pos h2] at h; simp at h
      rw [if_neg h2] at h
      by_cases h3 : c = 45 ∧ un > 2 ^ 63
      · rw [if_pos h3] at h; simp at h
      rw [if_neg h3] at h
      · have he : e = none := by
          cases e with
          | none => rfl
          | some e =>
            cases e with
            | errSyn => exact absurd rfl h1
            | errRange =>
              have hun := herr.2 rfl
              unfold maxUint64 at hun
              by_cases hc : c = 45
              · exact absurd ⟨hc, by omega⟩ h3
              · exact absurd ⟨hc, by omega⟩ h2
        subst he
        obtain ⟨hne, hd, hlt, hv⟩ := (ParseUint_none body un).mp hr
        have hval : v = wrapInt (if c = 45 then -(un : Int) else (un : Int)) := by
          have := congrArg NumResult.val h
          simpa using this.symm
        by_cases hc : c = 45
        · have hun : un ≤ 2 ^ 63 := by
            by_contra hgt
            exact h3 ⟨hc, by omega⟩
          have hb2 : body = cs := by rw [← hb]; simp [hc]
          simp only [hc, if_true] at hval
          have hr1 : minInt ≤ -(un : Int) := by unfold minInt; omega
          have hr2 : -(un : Int) ≤ maxInt := by unfold maxInt; omega
          rw [wrapInt_of_range _ hr1 hr2] at hval
          refine ⟨⟨body, hne, hd, Or.inr (Or.inr ⟨by rw [hb2, hc], ?_⟩)⟩, ?_, ?_⟩
          · rw [hval, hv]
          · rw [hval]; exact hr1
          · rw [hval]; exact hr2
        · have hun : un < 2 ^ 63 := by
            by_contra hge
            exact h2 ⟨hc, by omega⟩
          simp only [hc, if_false] at hval
          have hr1 : minInt ≤ (un : Int) := by unfold minInt; omega
          have hr2 : (un : Int) ≤ maxInt := by unfold maxInt; omega
          rw [wrapInt_of_range _ hr1 hr2] at hval
          refine ⟨⟨body, hne, hd, ?_⟩, ?_, ?_⟩
          · by_cases hp : c = 43
            · have hb2 : body = cs := by rw [← hb]; simp [hp]
              exact Or.inr (Or.inl ⟨by rw [hb2, hp], by rw [hval, hv]⟩)
            · have hb2 : body = c :: cs := by rw [← hb]; simp [hp, hc]
              exact Or.inl ⟨hb2.symm, by rw [hval, hv]⟩
          · rw [hval]; exact hr1
          · rw [hval]; exact hr2
  · rintro ⟨⟨ds, hne, hd, hcase⟩, hmin, hmax⟩
    unfold minInt at hmin
    unfold maxInt at hmax
    rcases hcase with ⟨rfl, rfl⟩ | ⟨rfl, rfl⟩ | ⟨rfl, rfl⟩
    · cases s with
      | nil => exact absurd rfl hne
      | cons c cs =>
        have hc := digit_ne_sign c (hd c (List.mem_cons_self c cs))
        have hpu := (ParseUint_none (c :: cs) (decimalValue (c :: cs))).mpr
          ⟨hne, hd, by omega, rfl⟩
        rw [ParseInt_cons]
        simp only [hc.1, hc.2, or_self, if_false, hpu]
        have h2 : ¬ (decimalValue (c :: cs) ≥ 2 ^ 63) := by omega
        simp only [not_false_eq_true, true_and, false_and, h2, if_false]
        rw [wrapInt_of_range _ (by unfold minInt; omega) (by unfold maxInt; omega)]
        simp
    · have hpu := (ParseUint_none ds (decimalValue ds)).mpr ⟨hne, hd, by omega, rfl⟩
      rw [ParseInt_cons]
      have h45 : ¬ ((43 : UInt8) = 45) := by decide
      simp only [true_or, if_true, hpu, h45]
      have h2 : ¬ (decimalValue ds ≥ 2 ^ 63) := by omega
      simp only [not_false_eq_true, true_and, false_and, h2, if_false]
      rw [wrapInt_of_range _ (by unfold minInt; omega) (by unfold maxInt; omega)]
      simp
    · have hpu := (ParseUint_none ds (decimalValue ds)).mpr ⟨hne, hd, by omega, rfl⟩
      rw [ParseInt_cons]
      simp only [or_true, if_true, hpu]
      have h2 : ¬ (decimalValue ds > 2 ^ 63) := by omega
      simp only [not_true_eq_false, false_and, true_and, h2, if_false]
      rw [wrapInt_of_range _ (by unfold minInt; omega) (by unfold maxInt; omega)]
      simp


/-- The fast path of `Atoi`, for a string of 1 to 18 bytes. -/
theorem Atoi_short (c : UInt8) (cs : GoString) (hl : (c :: cs).length < 19) :
    Atoi (c :: cs) =
      (let digits := if c = 45 ∨ c = 43 then cs else c :: cs
       if digits.length < 1 then ⟨0, some .errSyn⟩
       else
         match atoiFastLoop digits 0 with
         | none => ⟨0, some .errSyn⟩
         | some n => ⟨if c = 45 then -n else n, none⟩) := by
  simp only [Atoi, hl, if_true]

/-- The slow path of `Atoi`. -/
theorem Atoi_long (s : GoString) (hl : ¬ (0 < s.length ∧ s.length < 19)) :
    Atoi s = ParseInt s := by
  cases s with
  | nil => simp [Atoi]
  | cons c cs =>
    have : ¬ ((c :: cs).length < 19) := fun h => hl ⟨by simp, h⟩
    simp only [Atoi, this, if_false]

theorem isDecimal_length (s : GoString) (v : Int) (h : IsDecimal s v) : 0 < s.length := by
  obtain ⟨ds, hne, -, hcase⟩ := h
  rcases hcase with ⟨rfl, -⟩ | ⟨rfl, -⟩ | ⟨rfl, -⟩
  · exact List.length_pos.mpr hne
  · simp
  · simp

/-- The function `Atoi` returns `v` without error exactly on the decimal notations of
the integers `v` that fit a Go `int`. -/
theorem Atoi_none (s : GoString) (v : Int) :
    Atoi s = ⟨v, none⟩ ↔ IsDecimal s v ∧ minInt ≤ v ∧ v ≤ maxInt := by
  by_cases hl : 0 < s.length ∧ s.length < 19
  swap
  · rw [Atoi_long s hl]
    exact ParseInt_none s v
  cases s with
  | nil => simp at hl
  | cons c cs =>
    rw [Atoi_short c cs hl.2]
    simp only
    constructor
    · intro h
      generalize hdg : (if c = 45 ∨ c = 43 then cs else c :: cs) = digits at h
      have hlen : digits.length ≤ 18 := by
        have h19 := hl.2
        rw [← hdg]
        split <;> simp only [List.length_cons] at h19 ⊢ <;> omega
      split at h
      · simp at h
      · rename_i hne
        split at h
        · simp at h
        · rename_i n hn
          have hd := atoiFastLoop_some digits 0 n hn
          have hn2 := atoiFastLoop_digits digits hd 0
          simp only [Nat.cast_zero] at hn2
          rw [hn] at hn2
          have hnv : n = (decimalValue digits : Int) := by
            simpa [decimalValue] using hn2
          have hval : v = if c = 45 then -n else n := by
            have := congrArg NumResult.val h
            simpa using this.symm
          have hlt := decimalValue_lt digits hd hlen
          have hne2 : digits ≠ [] := by
            intro h0; rw [h0] at hne; simp at hne
          by_cases hc : c = 45
          · have hb2 : digits = cs := by rw [← hdg]; simp [hc]
            simp only [hc, if_true] at hval
            refine ⟨⟨digits, hne2, hd, Or.inr (Or.inr ⟨by rw [hb2, hc], by rw [hval, hnv]⟩)⟩,
              ?_, ?_⟩
            · rw [hval, hnv]; unfold minInt; omega
            · rw [hval, hnv]; unfold maxInt; omega
          · simp only [hc, if_false] at hval
            refine ⟨⟨digits, hne2, hd, ?_⟩, ?_, ?_⟩
            · by_cases hp : c = 43
              · have hb2 : digits = cs := by rw [← hdg]; simp [hp]
                exact Or.inr (Or.inl ⟨by rw [hb2, hp], by rw [hval, hnv]⟩)
              · have hb2 : digits = c :: cs := by rw [← hdg]; simp [hp, hc]
                exact Or.inl ⟨hb2.symm, by rw [hval, hnv]⟩
            · rw [hval, hnv]; unfold minInt; omega
            · rw [hval, hnv]; unfold maxInt; omega
    · rintro ⟨⟨ds, hne, hd, hcase⟩, -, -⟩
      have hfast := atoiFastLoop_digits ds hd 0
      simp only [Nat.cast_zero] at hfast
      have hlen : ¬ (ds.length < 1) := by
        have := List.length_pos.mpr hne
        omega
      rcases hcase with ⟨hs, rfl⟩ | ⟨hs, rfl⟩ | ⟨hs, rfl⟩
      · have hc := digit_ne_sign c (hd c (by rw [← hs]; exact List.mem_cons_self c cs))
        simp only [hc.1, hc.2, or_self, if_false, hs, hlen, hfast]
        rfl
      · have h1 : c = 43 := (List.cons.inj hs).1
        have h2 : cs = ds := (List.cons.inj hs).2
        have h45 : ¬ ((43 : UInt8) = 45) := by decide
        subst h1 h2
        simp only [or_true, if_true, hlen, if_false, hfast, h45]
        rfl
      · have h1 : c = 45 := (List.cons.inj hs).1
        have h2 : cs = ds := (List.cons.inj hs).2
        subst h1 h2
        simp only [true_or, if_true, hlen, if_false, hfast]
        rfl

/-- The value `Atoi` returns next to an error: 0 with a syntax error, the nearest
bound of `int` with a range error. -/
theorem Atoi_err (s : GoString) :
    ((Atoi s).err = some .errSyn → (Atoi s).val = 0) ∧
      ((Atoi s).err = some .errRange → (Atoi s).val = maxInt ∨ (Atoi s).val = minInt) := by
  have hpi : ∀ t : GoString, ((ParseInt t).err = some .errSyn → (ParseInt t).val = 0) ∧
      ((ParseInt t).err = some .errRange →
        (ParseInt t).val = maxInt ∨ (ParseInt t).val = minInt) := by
    intro t
    cases t with
    | nil => simp [ParseInt]
    | cons c cs =>
      rw [ParseInt_cons]
      simp only
      split_ifs <;> simp [maxInt, minInt]
  by_cases hl : 0 < s.length ∧ s.length < 19
  swap
  · rw [Atoi_long s hl]
    exact hpi s
  cases s with
  | nil => simp at hl
  | cons c cs =>
    rw [Atoi_short c cs hl.2]
    simp only
    generalize (if c = 45 ∨ c = 43 then cs else c :: cs) = digits
    split
    · simp
    · generalize atoiFastLoop digits 0 = r
      cases r <;> simp

theorem Atoi_val_range (s : GoString) : minInt ≤ (Atoi s).val ∧ (Atoi s).val ≤ maxInt := by
  cases he : (Atoi s).err with
  | none =>
    have h : Atoi s = ⟨(Atoi s).val, none⟩ := by rw [← he]
    exact ((Atoi_none s _).mp h).2
  | some e =>
    cases e with
    | errSyn =>
      rw [(Atoi_err s).1 he]
      unfold minInt maxInt
      omega
    | errRange =>
      rcases (Atoi_err s).2 he with h | h <;> rw [h] <;> unfold minInt maxInt <;> omega

/-- The function `Atoi` fails exactly on the strings that are not valid integers. -/
theorem Atoi_err_iff (s : GoString) : (Atoi s).err ≠ none ↔ ¬ IsValidInt s := by
  constructor
  · rintro h ⟨v, hv⟩
    have := (Atoi_none s v).mpr hv
    rw [this] at h
    exact h rfl
  · intro h he
    apply h
    have h2 : Atoi s = ⟨(Atoi s).val, none⟩ := by rw [← he]
    exact ⟨_, (Atoi_none s _).mp h2⟩


/-! ## Range errors of `Atoi` -/

theorem foldl_decStep_append_le (ds rest : GoString) (n : Nat) :
    ds.foldl decStep n ≤ (ds ++ rest).foldl decStep n := by
  rw [List.foldl_append]
  exact le_foldl_decStep rest _

theorem parseUintLoop_range (s : GoString) :
    ∀ n, n < 2 ^ 64 →
      ((parseUintLoop s n).2 = some .errRange ↔
        ∃ ds rest, s = ds ++ rest ∧ IsDigits ds ∧ 2 ^ 64 ≤ ds.foldl decStep n) := by
  induction s with
  | nil =>
    intro n hn
    simp only [parseUintLoop]
    constructor
    · intro h; simp at h
    · rintro ⟨ds, rest, hs, -, hge⟩
      have hds : ds = [] := (List.append_eq_nil.mp hs.symm).1
      rw [hds] at hge
      simp only [List.foldl_nil] at hge
      omega
  | cons c cs ih =>
    intro n hn
    by_cases hdig : 48 ≤ c.toNat ∧ c.toNat ≤ 57
    · have h1 : ¬ (c.toNat - 48 ≥ 10) := by omega
      have hstepdef : decStep n c = n * 10 + (c.toNat - 48) := rfl
      simp only [parseUintLoop, hdig, and_self, if_true, h1, if_false]
      by_cases hcut : n ≥ maxUint64 / 10 + 1
      · simp only [hcut, if_true, true_iff]
        refine ⟨[c], cs, rfl, ?_, ?_⟩
        · intro x hx
          rw [List.mem_singleton.mp hx]
          exact hdig
        · simp only [List.foldl_cons, List.foldl_nil]
          unfold maxUint64 at hcut
          omega
      · simp only [hcut, if_false]
        by_cases hov : (n * 10 + (c.toNat - 48)) % 2 ^ 64 < n * 10 ∨
            (n * 10 + (c.toNat - 48)) % 2 ^ 64 > maxUint64
        · simp only [hov, if_true, true_iff]
          refine ⟨[c], cs, rfl, ?_, ?_⟩
          · intro x hx
            rw [List.mem_singleton.mp hx]
            exact hdig
          · simp only [List.foldl_cons, List.foldl_nil]
            unfold maxUint64 at hcut hov
            omega
        · simp only [hov, if_false]
          have hstep : n * 10 + (c.toNat - 48) < 2 ^ 64 := by
            unfold maxUint64 at hcut hov
            omega
          rw [Nat.mod_eq_of_lt hstep]
          rw [ih _ hstep]
          constructor
          · rintro ⟨ds, rest, hs, hd, hge⟩
            refine ⟨c :: ds, rest, by rw [hs]; rfl, ?_, ?_⟩
            · intro x hx
              rcases List.mem_cons.mp hx with rfl | hx
              · exact hdig
              · exact hd x hx
            · simpa only [List.foldl_cons] using hge
          · rintro ⟨ds, rest, hs, hd, hge⟩
            cases ds with
            | nil =>
              simp only [List.foldl_nil] at hge
              omega
            | cons d ds =>
              have hc : c = d := (List.cons.inj hs).1
              have hcs : cs = ds ++ rest := (List.cons.inj hs).2
              subst hc
              exact ⟨ds, rest, hcs, fun x hx => hd x (List.mem_cons_of_mem _ hx),
                by simpa only [List.foldl_cons] using hge⟩
    · have hres : (parseUintLoop (c :: cs) n).2 = some .errSyn := by
        simp only [parseUintLoop, hdig, if_false]
        split
        · rfl
        · rename_i d hd
          split at hd
          · simp only [Option.some.injEq] at hd
            have h10 : d ≥ 10 := by omega
            simp only [h10, if_true]
          · simp at hd
      rw [hres]
      constructor
      · intro h; simp at h
      · rintro ⟨ds, rest, hs, hd, hge⟩
        cases ds with
        | nil =>
          simp only [List.foldl_nil] at hge
          omega
        | cons d ds =>
          have hc : c = d := (List.cons.inj hs).1
          subst hc
          exact absurd (hd c (List.mem_cons_self _ _)) hdig

theorem ParseUint_range (body : GoString) :
    (ParseUint body).2 = some .errRange ↔
      ∃ ds rest, body = ds ++ rest ∧ IsDigits ds ∧ 2 ^ 64 ≤ decimalValue ds := by
  unfold ParseUint decimalValue
  by_cases hb : body = []
  · simp only [hb, if_true]
    constructor
    · intro h; simp at h
    · rintro ⟨ds, rest, hs, -, hge⟩
      have hds : ds = [] := (List.append_eq_nil.mp hs.symm).1
      rw [hds] at hge
      simp at hge
  · simp only [hb, if_false]
    exact parseUintLoop_range body 0 (by decide)

theorem isMinus_cons (c : UInt8) (cs : GoString) : IsMinus (c :: cs) ↔ c = 45 := by
  simp [IsMinus]

theorem ParseInt_range (s : GoString) :
    ((ParseInt s).err = some .errRange ↔ IsOutOfRange s) ∧
    ((ParseInt s).err = some .errRange →
      (IsMinus s → (ParseInt s).val = minInt) ∧ (¬ IsMinus s → (ParseInt s).val = maxInt)) := by
  cases s with
  | nil =>
    constructor
    · simp only [ParseInt]
      constructor
      · intro h; simp at h
      · rintro ⟨ds, rest, hs, -, hcase⟩
        have hds : ds = [] := by
          simp only [unsignedPart] at hs
          exact (List.append_eq_nil.mp hs.symm).1
        rw [hds] at hcase
        simp [decimalValue] at hcase
    · intro h
      simp [ParseInt] at h
  | cons c cs =>
    rw [ParseInt_cons]
    simp only [isMinus_cons]
    unfold IsOutOfRange
    simp only [unsignedPart, isMinus_cons]
    generalize hb : (if c = 43 ∨ c = 45 then cs else c :: cs) = body
    generalize hr : ParseUint body = r
    obtain ⟨un, e⟩ := r
    have herr := ParseUint_err body
    have hrange := ParseUint_range body
    rw [hr] at herr hrange
    simp only at herr hrange ⊢
    cases e with
    | none =>
      obtain ⟨hne, hd, hlt, hun⟩ := (ParseUint_none body un).mp hr
      have hno : ¬ ∃ ds rest, body = ds ++ rest ∧ IsDigits ds ∧ 2 ^ 64 ≤ decimalValue ds := by
        intro hx
        have := hrange.mpr hx
        simp at this
      have hiff : (∃ ds rest, body = ds ++ rest ∧ IsDigits ds ∧
          (2 ^ 64 ≤ decimalValue ds ∨
            (rest = [] ∧ ((¬ c = 45 ∧ 2 ^ 63 ≤ decimalValue ds) ∨
              (c = 45 ∧ 2 ^ 63 < decimalValue ds))))) ↔
          ((¬ c = 45 ∧ 2 ^ 63 ≤ un) ∨ (c = 45 ∧ 2 ^ 63 < un)) := by
        constructor
        · rintro ⟨ds, rest, hs, hds, hcase⟩
          rcases hcase with hge | ⟨hrest, hcase⟩
          · exact absurd ⟨ds, rest, hs, hds, hge⟩ hno
          · have hbd : body = ds := by rw [hs, hrest, List.append_nil]
            rw [hun, hbd]
            exact hcase
        · intro hcase
          exact ⟨body, [], by simp, hd, Or.inr ⟨rfl, by rw [← hun]; exact hcase⟩⟩
      rw [hiff]
      by_cases hc : c = 45
      · by_cases hgt : 2 ^ 63 < un
        · have h2 : ¬ (¬ c = 45 ∧ un ≥ 2 ^ 63) := fun h => h.1 hc
          have h3 : c = 45 ∧ un > 2 ^ 63 := ⟨hc, hgt⟩
          simp only [reduceCtorEq, if_false, h2, h3, and_self, if_true, hc, not_true_eq_false,
            false_and, true_and, false_or, hgt, true_iff, forall_const, minInt,
            IsEmpty.forall_iff, and_true]
        · have h2 : ¬ (¬ c = 45 ∧ un ≥ 2 ^ 63) := fun h => h.1 hc
          have h3 : ¬ (c = 45 ∧ un > 2 ^ 63) := fun h => hgt h.2
          simp only [reduceCtorEq, if_false, h2, h3, hc, not_true_eq_false, false_and, true_and,
            false_or, hgt, iff_false, IsEmpty.forall_iff, and_true, not_false_eq_true]
      · by_cases hge : 2 ^ 63 ≤ un
        · have h2 : ¬ c = 45 ∧ un ≥ 2 ^ 63 := ⟨hc, hge⟩
          simp only [reduceCtorEq, if_false, h2, and_self, if_true, hc, not_false_eq_true,
            true_and, false_and, or_false, hge, true_iff, forall_const, maxInt,
            IsEmpty.forall_iff, true_and]
        · have h2 : ¬ (¬ c = 45 ∧ un ≥ 2 ^ 63) := fun h => hge h.2
          have h3 : ¬ (c = 45 ∧ un > 2 ^ 63) := fun h => hc h.1
          simp only [reduceCtorEq, if_false, h2, h3, hc, not_false_eq_true, true_and, false_and,
            or_false, hge, iff_false, IsEmpty.forall_iff, and_true]
    | some e =>
      cases e with
      | errSyn =>
        refine ⟨⟨fun h => by simp at h, ?_⟩, fun h => by simp at h⟩
        rintro ⟨ds, rest, hs, hds, hcase⟩
        exfalso
        rcases hcase with hge | ⟨hrest, hcase⟩
        · have := hrange.mpr ⟨ds, rest, hs, hds, hge⟩
          simp at this
        · have hbd : body = ds := by rw [hs, hrest, List.append_nil]
          have hpos : 0 < decimalValue ds := by
            rcases hcase with h | h <;> omega
          have hne : body ≠ [] := by
            intro h0
            rw [hbd] at h0
            rw [h0] at hpos
            simp [decimalValue] at hpos
          by_cases hlt : decimalValue body < 2 ^ 64
          · have := (ParseUint_none body (decimalValue body)).mpr
              ⟨hne, by rw [hbd]; exact hds, hlt, rfl⟩
            rw [hr] at this
            simp at this
          · have := hrange.mpr ⟨body, [], by simp, by rw [hbd]; exact hds, by omega⟩
            simp at this
      | errRange =>
        have hun := herr.2 rfl
        have hx := hrange.mp rfl
        unfold maxUint64 at hun
        have hiff : ∃ ds rest, body = ds ++ rest ∧ IsDigits ds ∧
            (2 ^ 64 ≤ decimalValue ds ∨
              (rest = [] ∧ ((¬ c = 45 ∧ 2 ^ 63 ≤ decimalValue ds) ∨
                (c = 45 ∧ 2 ^ 63 < decimalValue ds)))) := by
          obtain ⟨ds, rest, hs, hds, hge⟩ := hx
          exact ⟨ds, rest, hs, hds, Or.inl hge⟩
        rw [if_neg (by simp)]
        by_cases hc : c = 45
        · have h2 : ¬ (¬ c = 45 ∧ un ≥ 2 ^ 63) := fun h => h.1 hc
          have h3 : c = 45 ∧ un > 2 ^ 63 := ⟨hc, by omega⟩
          rw [if_neg h2, if_pos h3]
          exact ⟨⟨fun _ => hiff, fun _ => rfl⟩, fun _ => ⟨fun _ => rfl, fun h => absurd hc h⟩⟩
        · have h2 : ¬ c = 45 ∧ un ≥ 2 ^ 63 := ⟨hc, by omega⟩
          rw [if_pos h2]
          exact ⟨⟨fun _ => hiff, fun _ => rfl⟩, fun _ => ⟨fun h => absurd h hc, fun _ => rfl⟩⟩

theorem unsignedPart_length_le (s : GoString) : (unsignedPart s).length ≤ s.length := by
  cases s with
  | nil => simp [unsignedPart]
  | cons c cs =>
    simp only [unsignedPart]
    split <;> simp

theorem not_isOutOfRange_short (s : GoString) (hl : s.length < 19) : ¬ IsOutOfRange s := by
  rintro ⟨ds, rest, hs, hds, hcase⟩
  have h1 := unsignedPart_length_le s
  have h2 : ds.length ≤ 18 := by
    have := congrArg List.length hs
    rw [List.length_append] at this
    omega
  have hlt := decimalValue_lt ds hds h2
  rcases hcase with h | ⟨-, h | h⟩ <;> omega

/-- The function `Atoi` reports a range error exactly on the texts whose digits leave
the range, and returns next to it the smallest `int` after a `-` and the
largest otherwise. -/
theorem Atoi_range (s : GoString) :
    ((Atoi s).err = some .errRange ↔ IsOutOfRange s) ∧
    ((Atoi s).err = some .errRange →
      (IsMinus s → (Atoi s).val = minInt) ∧ (¬ IsMinus s → (Atoi s).val = maxInt)) := by
  by_cases hl : 0 < s.length ∧ s.length < 19
  swap
  · rw [Atoi_long s hl]
    exact ParseInt_range s
  have hno := not_isOutOfRange_short s hl.2
  have herr : (Atoi s).err ≠ some .errRange := by
    cases s with
    | nil => simp at hl
    | cons c cs =>
      rw [Atoi_short c cs hl.2]
      simp only
      generalize (if c = 45 ∨ c = 43 then cs else c :: cs) = digits
      split
      · simp
      · generalize atoiFastLoop digits 0 = r
        cases r <;> simp
  exact ⟨⟨fun h => absurd h herr, fun h => absurd h hno⟩, fun h => absurd h herr⟩

/-! ## `getUsers`: parsing of `page`, `limit` and `age` -/

theorem getUsersPage_valid (q : Values) (v : Int) (hv : IsDecimal (q.Get (str "page")) v)
    (h1 : minInt ≤ v) (h2 : v ≤ maxInt) : getUsersPage q = v := by
  unfold getUsersPage
  rw [(Atoi_none _ v).mpr ⟨hv, h1, h2⟩]
  simp

theorem getUsersPage_invalid (q : Values) (h : ¬ IsValidInt (q.Get (str "page"))) :
    getUsersPage q = 1 := by
  unfold getUsersPage
  exact if_pos ((Atoi_err_iff _).mpr h)

theorem getUsersLimit_valid (q : Values) (v : Int) (hv : IsDecimal (q.Get (str "limit")) v)
    (h1 : minInt ≤ v) (h2 : v ≤ maxInt) : getUsersLimit q = v := by
  unfold getUsersLimit
  rw [(Atoi_none _ v).mpr ⟨hv, h1, h2⟩]
  simp

theorem getUsersLimit_invalid (q : Values) (h : ¬ IsValidInt (q.Get (str "limit"))) :
    getUsersLimit q = 10 := by
  unfold getUsersLimit
  exact if_pos ((Atoi_err_iff _).mpr h)

theorem not_isValidInt_nil : ¬ IsValidInt [] := by
  rintro ⟨v, hv, -⟩
  have := isDecimal_length [] v hv
  simp at this

theorem Values.Get_absent (q : Values) (key : GoString) (h : q key = []) : q.Get key = [] := by
  simp [Values.Get, h]

/-- The outcome of `getUsers` is decided by the store alone: the read it builds is
always sent, and the status is 200 or 500 as the store answers. -/
theorem getUsers_outcome {β : Type} (dbSelect : SelectQuery → Except String (List User))
    (r : Request β) :
    (∀ us, dbSelect (getUsersQuery r.query) = .ok us →
      getUsers dbSelect r = .responded 200 (.users us) [.select (getUsersQuery r.query)]) ∧
    (∀ e, dbSelect (getUsersQuery r.query) = .error e →
      getUsers dbSelect r = .responded 500 (.text e) [.select (getUsersQuery r.query)]) := by
  constructor
  · intro us h
    simp [getUsers, h]
  · intro e h
    simp [getUsers, h]

/-- C7: `getUsers` parses `page` and `limit` without failing the request (whatever
the raw values, the read is sent to the store and the status is the store's: 200
with its rows, 500 with its error).  When the `page` parameter is absent or is not
a valid integer (an optionally signed decimal number that fits an `int`) the page
used is 1, when the `limit` parameter is absent or is not a valid integer the
limit used is 10, and when a parameter is a valid integer, that integer is the
value used. -/
theorem getUsers_page_limit_parsing {β : Type}
    (dbSelect : SelectQuery → Except String (List User)) (r : Request β) :
    ((∀ us, dbSelect (getUsersQuery r.query) = .ok us →
        getUsers dbSelect r = .responded 200 (.users us) [.select (getUsersQuery r.query)]) ∧
      (∀ e, dbSelect (getUsersQuery r.query) = .error e →
        getUsers dbSelect r = .responded 500 (.text e) [.select (getUsersQuery r.query)])) ∧
    (r.query (str "page") = [] → getUsersPage r.query = 1) ∧
    (¬ IsValidInt (r.query.Get (str "page")) → getUsersPage r.query = 1) ∧
    (∀ v, IsDecimal (r.query.Get (str "page")) v → minInt ≤ v → v ≤ maxInt →
      getUsersPage r.query = v) ∧
    (r.query (str "limit") = [] → getUsersLimit r.query = 10) ∧
    (¬ IsValidInt (r.query.Get (str "limit")) → getUsersLimit r.query = 10) ∧
    (∀ v, IsDecimal (r.query.Get (str "limit")) v → minInt ≤ v → v ≤ maxInt →
      getUsersLimit r.query = v) ∧
    (getUsersQuery r.query).limit = getUsersLimit r.query ∧
    (getUsersQuery r.query).offset =
      wrapInt (wrapInt (getUsersPage r.query - 1) * getUsersLimit r.query) := by
  refine ⟨getUsers_outcome dbSelect r, ?_, getUsersPage_invalid _, getUsersPage_valid _, ?_,
    getUsersLimit_invalid _, getUsersLimit_valid _, rfl, rfl⟩
  · intro h
    apply getUsersPage_invalid
    rw [Values.Get_absent _ _ h]
    exact not_isValidInt_nil
  · intro h
    apply getUsersLimit_invalid
    rw [Values.Get_absent _ _ h]
    exact not_isValidInt_nil

theorem isDecimal_two : IsDecimal (str "2") 2 :=
  ⟨str "2", by decide, by decide, Or.inl ⟨rfl, by decide⟩⟩

/-- C7 at `GET /users?page=2&limit=abc` on a store of 15 rows: page 2 and limit 10
are used and the request succeeds. -/
theorem getUsers_page_limit_parsing_witness :
    getUsersPage (pageLimitQuery (str "2") (str "abc")) = 2 ∧
    getUsersLimit (pageLimitQuery (str "2") (str "abc")) = 10 ∧
    getUsers (listSelect (sampleRows 15)) (listRequest (pageLimitQuery (str "2") (str "abc"))) =
      .responded 200 (.users ((sampleRows 15).drop 10))
        [.select ⟨none, none, 10, 10⟩] :=
  have h := getUsers_page_limit_parsing (listSelect (sampleRows 15))
    (listRequest (pageLimitQuery (str "2") (str "abc")))
  ⟨h.2.2.2.1 2 isDecimal_two (by decide) (by decide),
    h.2.2.2.2.2.1 ((Atoi_err_iff _).mp (by decide)),
    h.1.1 _ (by decide)⟩

/-! ## `getUsers`: no clamping of `page` and `limit` -/

/-- C5 fails: `GET /users?page=0&limit=10` uses page 0 and sends offset -10 to the
store, and `GET /users?page=1&limit=-5` uses and sends limit -5. -/
theorem getUsers_no_clamp_counterexample :
    getUsersPage (pageLimitQuery (str "0") (str "10")) = 0 ∧
    getUsersQuery (pageLimitQuery (str "0") (str "10")) = ⟨none, none, -10, 10⟩ ∧
    getUsersLimit (pageLimitQuery (str "1") (str "-5")) = -5 ∧
    getUsersQuery (pageLimitQuery (str "1") (str "-5")) = ⟨none, none, 0, -5⟩ := by
  decide

/-- C5 as amended: `getUsers` does not clamp; it uses the default (page 1, limit 10)
for a raw value that is absent, empty or not a valid integer, and a valid integer
as it is.  So when each of the two raw values is either not a valid integer or an
integer that is at least 1, the page and the limit used are at least 1, the limit
sent to the store is that limit, and the offset sent is `(page-1)*limit`, which is
not negative, as long as that product fits an `int`. -/
theorem getUsers_page_limit_bounds (q : Values)
    (hp : ¬ IsValidInt (q.Get (str "page")) ∨
      ∃ v, IsDecimal (q.Get (str "page")) v ∧ 1 ≤ v ∧ v ≤ maxInt)
    (hl : ¬ IsValidInt (q.Get (str "limit")) ∨
      ∃ v, IsDecimal (q.Get (str "limit")) v ∧ 1 ≤ v ∧ v ≤ maxInt) :
    1 ≤ getUsersPage q ∧ 1 ≤ getUsersLimit q ∧
    (getUsersQuery q).limit = getUsersLimit q ∧ 1 ≤ (getUsersQuery q).limit ∧
    ((getUsersPage q - 1) * getUsersLimit q ≤ maxInt →
      (getUsersQuery q).offset = (getUsersPage q - 1) * getUsersLimit q ∧
      0 ≤ (getUsersQuery q).offset) := by
  have h1 : 1 ≤ getUsersPage q := by
    rcases hp with h | ⟨v, hv, h1, h2⟩
    · rw [getUsersPage_invalid q h]
    · rw [getUsersPage_valid q v hv (by unfold minInt; omega) h2]
      exact h1
  have h2 : 1 ≤ getUsersLimit q := by
    rcases hl with h | ⟨v, hv, h1, h2⟩
    · rw [getUsersLimit_invalid q h]
      decide
    · rw [getUsersLimit_valid q v hv (by unfold minInt; omega) h2]
      exact h1
  refine ⟨h1, h2, rfl, h2, ?_⟩
  intro hfit
  have hnn : 0 ≤ (getUsersPage q - 1) * getUsersLimit q :=
    Int.mul_nonneg (by omega) (by omega)
  have hpm : getUsersPage q - 1 ≤ (getUsersPage q - 1) * getUsersLimit q := by
    have := Int.mul_le_mul_of_nonneg_left h2 (show 0 ≤ getUsersPage q - 1 by omega)
    simpa using this
  have hoff : (getUsersQuery q).offset = (getUsersPage q - 1) * getUsersLimit q := by
    show wrapInt (wrapInt (getUsersPage q - 1) * getUsersLimit q) = _
    rw [wrapInt_of_range (getUsersPage q - 1) (by unfold minInt; omega) (by omega)]
    exact wrapInt_of_range _ (by unfold minInt; omega) hfit
  exact ⟨hoff, by rw [hoff]; exact hnn⟩

theorem isDecimal_three : IsDecimal (str "3") 3 :=
  ⟨str "3", by decide, by decide, Or.inl ⟨rfl, by decide⟩⟩

/-- C5 as amended, at `GET /users?page=3&limit=`: page 3, limit 10, offset 20. -/
theorem getUsers_page_limit_bounds_witness :
    1 ≤ getUsersPage (pageLimitQuery (str "3") []) ∧
    1 ≤ getUsersLimit (pageLimitQuery (str "3") []) ∧
    (getUsersQuery (pageLimitQuery (str "3") [])).limit =
      getUsersLimit (pageLimitQuery (str "3") []) ∧
    1 ≤ (getUsersQuery (pageLimitQuery (str "3") [])).limit ∧
    ((getUsersPage (pageLimitQuery (str "3") []) - 1) *
        getUsersLimit (pageLimitQuery (str "3") []) ≤ maxInt →
      (getUsersQuery (pageLimitQuery (str "3") [])).offset =
        (getUsersPage (pageLimitQuery (str "3") []) - 1) *
          getUsersLimit (pageLimitQuery (str "3") []) ∧
      0 ≤ (getUsersQuery (pageLimitQuery (str "3") [])).offset) :=
  getUsers_page_limit_bounds (pageLimitQuery (str "3") [])
    (Or.inr ⟨3, isDecimal_three, by decide, by decide⟩)
    (Or.inl not_isValidInt_nil)

/-! ## `getUsers`: the `age` filter -/

theorem Values.Get_Del_ne (q : Values) (key k : GoString) (h : k ≠ key) :
    (q.Del key).Get k = q.Get k := by
  simp [Values.Get, Values.Del, h]

theorem Values.Get_Del_self (q : Values) (key : GoString) : (q.Del key).Get key = [] := by
  simp [Values.Get, Values.Del]

theorem getUsersPage_Del_age (q : Values) :
    getUsersPage (q.Del (str "age")) = getUsersPage q := by
  unfold getUsersPage
  rw [Values.Get_Del_ne q _ _ (by decide)]

theorem getUsersLimit_Del_age (q : Values) :
    getUsersLimit (q.Del (str "age")) = getUsersLimit q := by
  unfold getUsersLimit
  rw [Values.Get_Del_ne q _ _ (by decide)]

/-- The read of a request, from the read of the same request without `age`. -/
theorem getUsersQuery_age (q : Values) :
    getUsersQuery q =
      { getUsersQuery (q.Del (str "age")) with
        whereAge := if q.Get (str "age") ≠ [] then some (Atoi (q.Get (str "age"))).val
          else none } := by
  unfold getUsersQuery
  simp only [getUsersPage_Del_age, getUsersLimit_Del_age,
    Values.Get_Del_ne q (str "age") (str "name") (by decide)]

/-- C6 fails: `GET /users?age=abc` reads with the condition `age = 0`, where the same
request without `age` reads with no condition on age. -/
theorem getUsers_age_counterexample :
    (singleQuery (str "age") (str "abc")).Get (str "age") = str "abc" ∧
    (Atoi (str "abc")).err = some .errSyn ∧
    getUsersQuery (singleQuery (str "age") (str "abc")) = ⟨none, some 0, 0, 10⟩ ∧
    getUsersQuery ((singleQuery (str "age") (str "abc")).Del (str "age")) =
      ⟨none, none, 0, 10⟩ ∧
    getUsersQuery (singleQuery (str "age") (str "abc")) ≠
      getUsersQuery ((singleQuery (str "age") (str "abc")).Del (str "age")) := by
  decide

/-- C6 as amended: for a request whose `age` value is non-empty and not a valid
integer, `getUsers` surfaces no error (the read is sent and the status is the
store's), but the read does carry an equality condition on age, with the value
`Atoi` returns next to its dropped error.  That value is 0, unless the digits
that follow the optional sign, read from the left, leave the range (a leading run
of digits reaches `2^64`, whatever follows it, or the text is a decimal number
outside `[-2^63, 2^63)`): then it is the smallest `int` when the text begins with
`-` and the largest `int` otherwise.  The rest of the read is that of the same
request without `age`.  An `age` that is present and empty gives the read of the
request without `age`, which has no condition on age. -/
theorem getUsers_age_not_integer {β : Type}
    (dbSelect : SelectQuery → Except String (List User)) (r : Request β) :
    (r.query.Get (str "age") ≠ [] → ¬ IsValidInt (r.query.Get (str "age")) →
      (getUsersQuery r.query =
          { getUsersQuery (r.query.Del (str "age")) with
            whereAge := some (Atoi (r.query.Get (str "age"))).val } ∧
        (¬ IsOutOfRange (r.query.Get (str "age")) →
          (Atoi (r.query.Get (str "age"))).val = 0) ∧
        (IsOutOfRange (r.query.Get (str "age")) → ¬ IsMinus (r.query.Get (str "age")) →
          (Atoi (r.query.Get (str "age"))).val = maxInt) ∧
        (IsOutOfRange (r.query.Get (str "age")) → IsMinus (r.query.Get (str "age")) →
          (Atoi (r.query.Get (str "age"))).val = minInt) ∧
        (∀ us, dbSelect (getUsersQuery r.query) = .ok us →
          getUsers dbSelect r =
            .responded 200 (.users us) [.select (getUsersQuery r.query)]) ∧
        (∀ e, dbSelect (getUsersQuery r.query) = .error e →
          getUsers dbSelect r =
            .responded 500 (.text e) [.select (getUsersQuery r.query)]))) ∧
    (r.query.Get (str "age") = [] →
      getUsersQuery r.query = getUsersQuery (r.query.Del (str "age"))) ∧
    (getUsersQuery (r.query.Del (str "age"))).whereAge = none := by
  refine ⟨?_, ?_, ?_⟩
  · intro hne hinv
    have herr := (Atoi_err_iff _).mpr hinv
    have hrange := Atoi_range (r.query.Get (str "age"))
    refine ⟨?_, ?_, ?_, ?_, (getUsers_outcome dbSelect r).1, (getUsers_outcome dbSelect r).2⟩
    · rw [getUsersQuery_age r.query, if_pos hne]
    · intro hno
      cases he : (Atoi (r.query.Get (str "age"))).err with
      | none => exact absurd he herr
      | some e =>
        cases e with
        | errSyn => exact (Atoi_err _).1 he
        | errRange => exact absurd (hrange.1.mp he) hno
    · intro hout hpos
      exact ((hrange.2 (hrange.1.mpr hout)).2 hpos)
    · intro hout hneg
      exact ((hrange.2 (hrange.1.mpr hout)).1 hneg)
  · intro he
    rw [getUsersQuery_age r.query, if_neg (by simpa using he)]
    simp [getUsersQuery, Values.Get_Del_self]
  · simp [getUsersQuery, Values.Get_Del_self]

theorem isOutOfRange_sample : IsOutOfRange (str "99999999999999999999abc") :=
  ⟨str "99999999999999999999", str "abc", by decide, by decide, Or.inl (by decide)⟩

/-- C6 as amended, at `GET /users?age=99999999999999999999abc` (20 digits reach
`2^64` before the letters): the read carries the condition
`age = 9223372036854775807`; and at `GET /users?age=abc`: the condition `age = 0`. -/
theorem getUsers_age_not_integer_witness :
    getUsersQuery (singleQuery (str "age") (str "99999999999999999999abc")) =
      { getUsersQuery
          ((singleQuery (str "age") (str "99999999999999999999abc")).Del (str "age"))
        with whereAge := some (Atoi ((singleQuery (str "age")
          (str "99999999999999999999abc")).Get (str "age"))).val } ∧
    (Atoi ((singleQuery (str "age") (str "99999999999999999999abc")).Get (str "age"))).val =
      maxInt ∧
    (Atoi ((singleQuery (str "age") (str "abc")).Get (str "age"))).val = 0 :=
  have h := (getUsers_age_not_integer (listSelect []) (listRequest
      (singleQuery (str "age") (str "99999999999999999999abc")))).1
      (by decide) ((Atoi_err_iff _).mp (by decide))
  have h0 := (getUsers_age_not_integer (listSelect []) (listRequest
      (singleQuery (str "age") (str "abc")))).1
      (by decide) ((Atoi_err_iff _).mp (by decide))
  ⟨h.1, h.2.2.1 isOutOfRange_sample (by decide),
    h0.2.1 (not_isOutOfRange_short _ (by decide))⟩

/-! ## `getUsers`: pagination over a list store -/

theorem rowsAt_eq {α : Type} (rows : List α) (o l : Nat) :
    rowsAt rows (o : Int) (l : Int) = (rows.drop o).take l := by
  unfold rowsAt
  rw [List.drop_take]
  have h1 : ((o : Int) + (l : Int)).toNat = o + l := by omega
  have h2 : (o : Int).toNat = o := by omega
  rw [h1, h2]
  congr 1
  omega

theorem rowsAt_length {α : Type} (rows : List α) (o l : Int) :
    (rowsAt rows o l).length = min (o + l).toNat rows.length - o.toNat := by
  unfold rowsAt
  rw [List.length_drop, List.length_take]

theorem listSelect_noFilter (rows : List User) (o l : Int) :
    listSelect rows ⟨none, none, o, l⟩ = .ok (rowsAt rows o l) := by
  simp [listSelect]

/-- The read of a request for page `p` with limit `l` and no filter, when
`(p-1)*l` fits an `int`. -/
theorem getUsersQuery_page (q : Values) (p l : Int) (hq : IsPageRequest q p l)
    (hp : 1 ≤ p) (hl : 1 ≤ l) (hfit : (p - 1) * l ≤ maxInt) :
    getUsersQuery q = ⟨none, none, (p - 1) * l, l⟩ := by
  obtain ⟨h1, h2, h3, h4⟩ := hq
  have hnn : 0 ≤ (p - 1) * l := Int.mul_nonneg (by omega) (by omega)
  have hpm : p - 1 ≤ (p - 1) * l := by
    have := Int.mul_le_mul_of_nonneg_left hl (show 0 ≤ p - 1 by omega)
    simpa using this
  unfold getUsersQuery
  simp only [h1, h2, h3, h4, ne_eq, not_true_eq_false, if_false]
  rw [wrapInt_of_range (p - 1) (by unfold minInt; omega) (by omega),
    wrapInt_of_range _ (by unfold minInt; omega) hfit]

/-- The response of `getUsers` over the list store, for page `p` with limit `l` and
no filter, when `(p-1)*l` fits an `int`: the rows at `[(p-1)*l, (p-1)*l + l)`. -/
theorem getUsers_page {β : Type} (rows : List User) (r : Request β) (p l : Int)
    (hq : IsPageRequest r.query p l) (hp : 1 ≤ p) (hl : 1 ≤ l)
    (hfit : (p - 1) * l ≤ maxInt) :
    getUsers (listSelect rows) r =
      .responded 200 (.users (rowsAt rows ((p - 1) * l) l))
        [.select ⟨none, none, (p - 1) * l, l⟩] := by
  have hquery := getUsersQuery_page r.query p l hq hp hl hfit
  have h := (getUsers_outcome (listSelect rows) r).1 (rowsAt rows ((p - 1) * l) l)
    (by rw [hquery]; exact listSelect_noFilter rows _ _)
  rw [h, hquery]

/-- C8 fails: on a store of one row, `GET /users?page=4611686018427387905&limit=4`
has page and limit at least 1, but `(page-1)*limit` is `2^64`, which wraps to the
offset 0: the response carries 1 row, where the formula gives 0. -/
theorem getUsers_page_size_counterexample :
    1 ≤ getUsersPage (pageLimitQuery (str "4611686018427387905") (str "4")) ∧
    1 ≤ getUsersLimit (pageLimitQuery (str "4611686018427387905") (str "4")) ∧
    IsPageRequest (pageLimitQuery (str "4611686018427387905") (str "4"))
      4611686018427387905 4 ∧
    getUsers (listSelect (sampleRows 1))
        (listRequest (pageLimitQuery (str "4611686018427387905") (str "4"))) =
      .responded 200 (.users (sampleRows 1)) [.select ⟨none, none, 0, 4⟩] ∧
    (sampleRows 1).length = 1 ∧
    min (4 : Int) (max 0 (((sampleRows 1).length : Int) - (4611686018427387905 - 1) * 4)) = 0 := by
  decide

/-- C8 as amended: over a store that is a fixed-order list of `N` rows on which
`Offset(o).Limit(l)` returns the rows at `[o, o+l)`, for every `N`, every page
`p ≥ 1` and limit `l ≥ 1` whose offset `(p-1)*l` fits an `int` (is at most
`2^63 - 1`), the read `getUsers` builds for a request without filters is offset
`(p-1)*l`, limit `l`, and the response carries exactly
`min(l, max(0, N - (p-1)*l))` rows. -/
theorem getUsers_page_size {β : Type} (rows : List User) (r : Request β) (p l : Int)
    (hq : IsPageRequest r.query p l) (hp : 1 ≤ p) (hl : 1 ≤ l)
    (hfit : (p - 1) * l ≤ maxInt) :
    ∃ us, getUsers (listSelect rows) r =
        .responded 200 (.users us) [.select ⟨none, none, (p - 1) * l, l⟩] ∧
      (us.length : Int) = min l (max 0 ((rows.length : Int) - (p - 1) * l)) := by
  refine ⟨rowsAt rows ((p - 1) * l) l, getUsers_page rows r p l hq hp hl hfit, ?_⟩
  have hnn : 0 ≤ (p - 1) * l := Int.mul_nonneg (by omega) (by omega)
  rw [rowsAt_length]
  generalize (p - 1) * l = o at hnn ⊢
  omega

/-- C8 as amended, at 15 rows and `GET /users?limit=10&page=2`: exactly 5 rows. -/
theorem getUsers_page_size_witness :
    (∃ us, getUsers (listSelect (sampleRows 15))
          (listRequest (pageLimitQuery (str "2") (str "10"))) =
        .responded 200 (.users us) [.select ⟨none, none, (2 - 1) * 10, 10⟩] ∧
      (us.length : Int) = min 10 (max 0 (((sampleRows 15).length : Int) - (2 - 1) * 10))) ∧
    (getUsers (listSelect (sampleRows 15))
      (listRequest (pageLimitQuery (str "2") (str "10")))).listed.length = 5 :=
  ⟨getUsers_page_size (sampleRows 15) (listRequest (pageLimitQuery (str "2") (str "10")))
      2 10 (by decide) (by decide) (by decide) (by decide), by decide⟩

theorem flatMap_windows {α : Type} (L : Nat) :
    ∀ (k : Nat) (rows : List α), rows.length ≤ k * L →
      (List.range k).flatMap (fun i => (rows.drop (i * L)).take L) = rows := by
  intro k
  induction k with
  | zero =>
    intro rows h
    have : rows = [] := List.length_eq_zero.mp (by omega)
    simp [this]
  | succ k ih =>
    intro rows h
    rw [List.range_succ_eq_map, List.flatMap_cons, List.flatMap_map]
    have hrest : ∀ i, (rows.drop (Nat.succ i * L)).take L =
        ((rows.drop L).drop (i * L)).take L := by
      intro i
      rw [List.drop_drop]
      congr 2
      rw [Nat.succ_mul]
      omega
    simp only [hrest, Nat.zero_mul, List.drop_zero]
    rw [ih (rows.drop L) (by rw [List.length_drop, Nat.succ_mul] at *; omega)]
    exact List.take_append_drop L rows

theorem pageCount_mul_ge (n L : Nat) (hL : 0 < L) : n ≤ pageCount n (L : Int) * L := by
  unfold pageCount
  simp only [Int.toNat_ofNat]
  have h1 := Nat.div_add_mod (n + L - 1) L
  have h2 := Nat.mod_lt (n + L - 1) hL
  have h3 : L * ((n + L - 1) / L) = (n + L - 1) / L * L := Nat.mul_comm _ _
  omega

theorem lt_pageCount (n L i : Nat) (hL : 0 < L) (h : i < pageCount n (L : Int)) :
    i * L < n := by
  unfold pageCount at h
  simp only [Int.toNat_ofNat] at h
  have h1 : (i + 1) * L ≤ n + L - 1 := (Nat.le_div_iff_mul_le hL).mp h
  rw [Nat.succ_mul] at h1
  omega

/-- C9 fails: on a store of one row with limit 4 there is one page, page
4611686018427387905 lies beyond it, and yet `getUsers` answers it with the row:
`(page-1)*limit` is `2^64`, which wraps to the offset 0. -/
theorem getUsers_pages_counterexample :
    pageCount (sampleRows 1).length 4 = 1 ∧
    IsPageRequest (pageLimitQuery (str "4611686018427387905") (str "4"))
      4611686018427387905 4 ∧
    (getUsers (listSelect (sampleRows 1))
      (listRequest (pageLimitQuery (str "4611686018427387905") (str "4")))).listed =
      sampleRows 1 ∧
    sampleRows 1 ≠ [] := by
  decide

/-- C9 as amended: over a store that is a fixed-order list on which
`Offset(o).Limit(l)` returns the rows at `[o, o+l)`, for every collection (of at
most `2^63 - 1` rows, as any Go slice) and every limit `l ≥ 1`, the results of
`getUsers` for pages `1, 2, ..., ceil(N/l)`, concatenated in order, are exactly
the collection (every row in exactly one page), each of these requests
succeeding; and every page beyond `ceil(N/l)` whose offset `(p-1)*l` fits an
`int` is empty. -/
theorem getUsers_pages_cover {β : Type} (rows : List User) (l : Int)
    (req : Nat → Request β) (hl : 1 ≤ l) (hN : (rows.length : Int) ≤ maxInt)
    (hreq : ∀ i, i < pageCount rows.length l → IsPageRequest (req i).query (i + 1) l) :
    (List.range (pageCount rows.length l)).flatMap
        (fun i => (getUsers (listSelect rows) (req i)).listed) = rows ∧
    (∀ i, i < pageCount rows.length l →
      ∃ us, getUsers (listSelect rows) (req i) =
        .responded 200 (.users us) [.select ⟨none, none, i * l, l⟩]) ∧
    (∀ (r : Request β) (p : Int), IsPageRequest r.query p l →
      (pageCount rows.length l : Int) < p → (p - 1) * l ≤ maxInt →
      getUsers (listSelect rows) r =
        .responded 200 (.users []) [.select ⟨none, none, (p - 1) * l, l⟩]) := by
  obtain ⟨L, rfl⟩ := Int.eq_ofNat_of_zero_le (show 0 ≤ l by omega)
  have hL : 0 < L := by omega
  have hpage : ∀ i, i < pageCount rows.length (L : Int) →
      getUsers (listSelect rows) (req i) =
        .responded 200 (.users ((rows.drop (i * L)).take L))
          [.select ⟨none, none, i * L, L⟩] := by
    intro i hi
    have hlt := lt_pageCount rows.length L i hL hi
    have hfit : (((i : Int) + 1) - 1) * (L : Int) ≤ maxInt := by
      have : ((i * L : Nat) : Int) < rows.length := by exact_mod_cast hlt
      push_cast at this
      simp only [add_sub_cancel_right]
      omega
    have h := getUsers_page rows (req i) (i + 1) L (hreq i hi) (by omega) hl hfit
    simp only [add_sub_cancel_right] at h
    rw [h]
    have hcast : (i : Int) * (L : Int) = ((i * L : Nat) : Int) := by push_cast; rfl
    rw [hcast, rowsAt_eq]
  refine ⟨?_, ?_, ?_⟩
  · have hcongr : (List.range (pageCount rows.length (L : Int))).flatMap
        (fun i => (getUsers (listSelect rows) (req i)).listed) =
        (List.range (pageCount rows.length (L : Int))).flatMap
          (fun i => (rows.drop (i * L)).take L) := by
      apply List.flatMap_congr
      intro i hi
      rw [hpage i (List.mem_range.mp hi)]
      rfl
    rw [hcongr]
    exact flatMap_windows L _ rows (pageCount_mul_ge rows.length L hL)
  · intro i hi
    exact ⟨_, hpage i hi⟩
  · intro r p hq hp hfit
    have hp1 : 1 ≤ p := by omega
    rw [getUsers_page rows r p L hq hp1 hl hfit]
    obtain ⟨P, hP⟩ := Int.eq_ofNat_of_zero_le (show 0 ≤ p - 1 by omega)
    have hge := pageCount_mul_ge rows.length L hL
    have hPk : pageCount rows.length (L : Int) ≤ P := by omega
    have hmul : pageCount rows.length (L : Int) * L ≤ P * L := Nat.mul_le_mul_right L hPk
    have hcast : (p - 1) * (L : Int) = ((P * L : Nat) : Int) := by rw [hP]; push_cast; rfl
    have hempty : rowsAt rows ((p - 1) * (L : Int)) L = [] := by
      rw [hcast, rowsAt_eq]
      rw [List.drop_eq_nil_of_le (by omega)]
      simp
    rw [hempty]

/-- C9 as amended, on 3 rows with limit 2: pages 1 and 2 give back the 3 rows, and
page 3 is empty. -/
theorem getUsers_pages_cover_witness :
    ((List.range (pageCount (sampleRows 3).length 2)).flatMap
        (fun i => (getUsers (listSelect (sampleRows 3))
          (listRequest (pageLimitQuery [49 + UInt8.ofNat i] (str "2")))).listed) =
      sampleRows 3) ∧
    getUsers (listSelect (sampleRows 3)) (listRequest (pageLimitQuery (str "3") (str "2"))) =
      .responded 200 (.users []) [.select ⟨none, none, (3 - 1) * 2, 2⟩] :=
  have h := getUsers_pages_cover (sampleRows 3) 2
    (fun i => listRequest (pageLimitQuery [49 + UInt8.ofNat i] (str "2")))
    (by decide) (by decide) (by decide)
  ⟨h.1, h.2.2 _ 3 (by decide) (by decide) (by decide)⟩

/-- The request `GET /users` without a query string on a store of 15 rows: the
default limit applies and 10 rows come back, not all 15. -/
theorem getUsers_default_limit :
    getUsers (listSelect (sampleRows 15)) (listRequest (fun _ => [])) =
      .responded 200 (.users ((sampleRows 15).take 10)) [.select ⟨none, none, 0, 10⟩] := by
  decide

/-! ## The token codec: base64url and the segments -/

theorem b64Val_b64Char : ∀ n, n < 64 → b64Val (b64Char n) = some n := by
  decide

theorem b64Char_ne_dot : ∀ n, n < 64 → b64Char n ≠ 46 := by
  decide

theorem ofNat_eq_of_toNat (c : UInt8) (n : Nat) (h : n = c.toNat) : UInt8.ofNat n = c := by
  apply UInt8.ext
  rw [UInt8.toNat_ofNat_of_lt (by rw [h]; exact UInt8.toNat_lt_size c)]
  exact h

theorem base64urlDecode_encode (bs : GoString) :
    base64urlDecode (base64urlEncode bs) = some bs := by
  induction bs using base64urlEncode.induct with
  | case1 a b c rest ih =>
    have ha := toNat_lt_256 a
    have hb := toNat_lt_256 b
    have hc := toNat_lt_256 c
    simp only [base64urlEncode, base64urlDecode]
    rw [b64Val_b64Char _ (by omega), b64Val_b64Char _ (by omega), b64Val_b64Char _ (by omega),
      b64Val_b64Char _ (by omega), ih]
    simp only
    rw [ofNat_eq_of_toNat a _ (by omega), ofNat_eq_of_toNat b _ (by omega),
      ofNat_eq_of_toNat c _ (by omega)]
  | case2 a b =>
    have ha := toNat_lt_256 a
    have hb := toNat_lt_256 b
    simp only [base64urlEncode, base64urlDecode]
    rw [b64Val_b64Char _ (by omega), b64Val_b64Char _ (by omega), b64Val_b64Char _ (by omega)]
    simp only
    rw [ofNat_eq_of_toNat a _ (by omega), ofNat_eq_of_toNat b _ (by omega)]
  | case3 a =>
    have ha := toNat_lt_256 a
    simp only [base64urlEncode, base64urlDecode]
    rw [b64Val_b64Char _ (by omega), b64Val_b64Char _ (by omega)]
    simp only
    rw [ofNat_eq_of_toNat a _ (by omega)]
  | case4 => rfl

theorem dot_not_mem_base64urlEncode (bs : GoString) : (46 : UInt8) ∉ base64urlEncode bs := by
  induction bs using base64urlEncode.induct with
  | case1 a b c rest ih =>
    have ha := toNat_lt_256 a
    have hb := toNat_lt_256 b
    have hc := toNat_lt_256 c
    simp only [base64urlEncode, List.mem_cons, not_or]
    exact ⟨(b64Char_ne_dot _ (by omega)).symm, (b64Char_ne_dot _ (by omega)).symm,
      (b64Char_ne_dot _ (by omega)).symm, (b64Char_ne_dot _ (by omega)).symm, ih⟩
  | case2 a b =>
    have ha := toNat_lt_256 a
    have hb := toNat_lt_256 b
    simp only [base64urlEncode, List.mem_cons, not_or]
    exact ⟨(b64Char_ne_dot _ (by omega)).symm, (b64Char_ne_dot _ (by omega)).symm,
      (b64Char_ne_dot _ (by omega)).symm, by simp⟩
  | case3 a =>
    have ha := toNat_lt_256 a
    simp only [base64urlEncode, List.mem_cons, not_or]
    exact ⟨(b64Char_ne_dot _ (by omega)).symm, (b64Char_ne_dot _ (by omega)).symm, by simp⟩
  | case4 => simp [base64urlEncode]

theorem splitDots_no_dot (a : GoString) (ha : (46 : UInt8) ∉ a) : splitDots a = [a] := by
  induction a with
  | nil => rfl
  | cons c cs ih =>
    have hc : c ≠ 46 := fun h => ha (by rw [h]; exact List.mem_cons_self _ _)
    have hcs : (46 : UInt8) ∉ cs := fun h => ha (List.mem_cons_of_mem _ h)
    simp only [splitDots, hc, if_false, ih hcs]

theorem splitDots_append_dot (a rest : GoString) (ha : (46 : UInt8) ∉ a) :
    splitDots (a ++ 46 :: rest) = a :: splitDots rest := by
  induction a with
  | nil => simp [splitDots]
  | cons c cs ih =>
    have hc : c ≠ 46 := fun h => ha (by rw [h]; exact List.mem_cons_self _ _)
    have hcs : (46 : UInt8) ∉ cs := fun h => ha (List.mem_cons_of_mem _ h)
    have h := ih hcs
    rw [List.cons_append]
    simp only [splitDots, hc, if_false]
    rw [h]

theorem splitDots_issue (P : CodecParams) (c : Claims) (key : GoString) :
    splitDots (issue P c key) =
      [base64urlEncode jwtHeader, base64urlEncode (P.encodeClaims c),
        base64urlEncode (P.mac key
          (base64urlEncode jwtHeader ++ 46 :: base64urlEncode (P.encodeClaims c)))] := by
  unfold issue
  simp only [List.append_assoc, List.cons_append]
  rw [splitDots_append_dot _ _ (dot_not_mem_base64urlEncode _),
    splitDots_append_dot _ _ (dot_not_mem_base64urlEncode _),
    splitDots_no_dot _ (dot_not_mem_base64urlEncode _)]

/-- What the token codec answers on a token it issued, by the clock alone. -/
theorem verify_issue_eq (P : CodecParams) (c : Claims) (key : GoString) (now : Int)
    (hdec : P.decodeClaims (P.encodeClaims c) = some c) :
    verify P (issue P c key) key now =
      if now / second ≥ c.ExpiresAt then .error .expired
      else if now / second < c.IssuedAt then .error .usedBeforeIssued
      else .ok c := by
  unfold verify
  rw [splitDots_issue]
  simp only [base64urlDecode_encode, hdec, ne_eq, not_true_eq_false, if_false]

/-- The token codec accepts what it issued, from the second it was issued in until
it expires. -/
theorem verify_issue (P : CodecParams) (c : Claims) (key : GoString) (now : Int)
    (hdec : P.decodeClaims (P.encodeClaims c) = some c)
    (hexp : now < c.ExpiresAt * second) (hiat : c.IssuedAt * second ≤ now) :
    verify P (issue P c key) key now = .ok c := by
  have h1 : ¬ (now / second ≥ c.ExpiresAt) := by
    unfold second at hexp ⊢
    omega
  have h2 : ¬ (now / second < c.IssuedAt) := by
    unfold second at hiat ⊢
    omega
  rw [verify_issue_eq P c key now hdec, if_neg h1, if_neg h2]

/-- The token codec refuses what it issued once it has expired. -/
theorem verify_issue_expired (P : CodecParams) (c : Claims) (key : GoString) (now : Int)
    (hdec : P.decodeClaims (P.encodeClaims c) = some c)
    (hexp : c.ExpiresAt * second ≤ now) :
    verify P (issue P c key) key now = .error .expired := by
  have h1 : now / second ≥ c.ExpiresAt := by
    unfold second at hexp ⊢
    omega
  rw [verify_issue_eq P c key now hdec, if_pos h1]

/-- The token codec refuses what it issued before the second it was issued in. -/
theorem verify_issue_early (P : CodecParams) (c : Claims) (key : GoString) (now : Int)
    (hdec : P.decodeClaims (P.encodeClaims c) = some c)
    (hexp : now < c.ExpiresAt * second) (hiat : now < c.IssuedAt * second) :
    verify P (issue P c key) key now = .error .usedBeforeIssued := by
  have h1 : ¬ (now / second ≥ c.ExpiresAt) := by
    unfold second at hexp ⊢
    omega
  have h2 : now / second < c.IssuedAt := by
    unfold second at hiat ⊢
    omega
  rw [verify_issue_eq P c key now hdec, if_neg h1, if_pos h2]

/-! ## `createUser` and `updateUser`: validation -/

theorem validateStruct_ne_nil (isEmail : String → Bool) (u : User)
    (h : u.Name.length < 2 ∨ 100 < u.Name.length ∨ u.Age < 0 ∨ 130 < u.Age) :
    validateStruct isEmail u ≠ [] := by
  unfold validateStruct
  rcases h with h | h | h | h
  · have : validName u.Name = false := by
      unfold validName
      simp only [Bool.and_eq_false_imp, Bool.and_eq_true, decide_eq_true_eq, decide_eq_false_iff_not]
      omega
    simp [this]
  · have : validName u.Name = false := by
      unfold validName
      simp only [Bool.and_eq_false_imp, Bool.and_eq_true, decide_eq_true_eq, decide_eq_false_iff_not]
      omega
    simp [this]
  · have : validAge u.Age = false := by
      unfold validAge
      simp only [Bool.and_eq_false_imp, decide_eq_true_eq, decide_eq_false_iff_not]
      omega
    simp [this]
  · have : validAge u.Age = false := by
      unfold validAge
      simp only [Bool.and_eq_false_imp, decide_eq_true_eq, decide_eq_false_iff_not]
      omega
    simp [this]

/-- C10: for every request whose decoded `User` has a name of fewer than 2 or more
than 100 characters, or an age below 0 or above 130, `createUser` and `updateUser`
respond 400 and make no store call (nothing is inserted or updated), whatever the
store and the e-mail check. -/
theorem createUser_updateUser_reject (isEmail : String → Bool)
    (dbInsert : User → Except String User) (dbUpdate : Int → User → Except String Unit)
    (r : Request User)
    (h : r.body.Name.length < 2 ∨ 100 < r.body.Name.length ∨ r.body.Age < 0 ∨
      130 < r.body.Age) :
    (∃ fields, createUser isEmail dbInsert r = .responded 400 (.invalid fields) []) ∧
    (∃ fields, updateUser isEmail dbUpdate r = .responded 400 (.invalid fields) []) := by
  have hne := validateStruct_ne_nil isEmail r.body h
  cases hv : validateStruct isEmail r.body with
  | nil => exact absurd hv hne
  | cons f fs =>
    constructor
    · exact ⟨f :: fs, by simp only [createUser, hv]⟩
    · exact ⟨f :: fs, by simp only [updateUser, hv]⟩

/-- C10 at the body `name:"A"`: 400 from both handlers, nothing written, even over a
store that would accept the row. -/
theorem createUser_updateUser_reject_witness :
    (∃ fields, createUser (fun _ => true) (fun u => .ok u)
        (userRequest ⟨0, "A", "al@x.com", 30⟩) = .responded 400 (.invalid fields) []) ∧
    (∃ fields, updateUser (fun _ => true) (fun _ _ => .ok ())
        (userRequest ⟨0, "A", "al@x.com", 30⟩) = .responded 400 (.invalid fields) []) :=
  createUser_updateUser_reject (fun _ => true) (fun u => .ok u) (fun _ _ => .ok ())
    (userRequest ⟨0, "A", "al@x.com", 30⟩) (Or.inl (by decide))

/-! ## `loginHandler` -/

theorem issue_ne_nil (P : CodecParams) (c : Claims) (key : GoString) : issue P c key ≠ [] := by
  unfold issue
  simp

/-- Signing with the token codec never fails and never gives the empty string. -/
theorem specLib_signs (P : CodecParams) (c : Claims) (key : GoString) :
    ∃ tok, tok ≠ [] ∧ (specLib P).signedString c key = .ok tok :=
  ⟨issue P c key, issue_ne_nil P c key, rfl⟩

theorem loginHandler_match (lib : JwtLib) (now1 now2 : Int)
    (r : Request (Option AuthRequest)) (a : AuthRequest) (hbody : r.body = some a)
    (h : a.Username = "user" ∧ a.Password = "password") (tok : GoString)
    (hsign : lib.signedString (loginClaims "user" now1 now2) jwtKey = .ok tok) :
    loginHandler lib now1 now2 r =
      .responded 200 (.token tok) [.sign (loginClaims "user" now1 now2)] := by
  simp only [loginHandler, hbody, h, and_self, if_true, hsign]

theorem loginHandler_mismatch (lib : JwtLib) (now1 now2 : Int)
    (r : Request (Option AuthRequest)) (a : AuthRequest) (hbody : r.body = some a)
    (h : ¬ (a.Username = "user" ∧ a.Password = "password")) :
    loginHandler lib now1 now2 r = .responded 401 (.text "Unauthorized") [] := by
  simp only [loginHandler, hbody, h, if_false]

/-- The claims `loginHandler` signs, whatever the library answers. -/
theorem loginHandler_signs (lib : JwtLib) (now1 now2 : Int)
    (r : Request (Option AuthRequest)) (a : AuthRequest) (hbody : r.body = some a)
    (h : a.Username = "user" ∧ a.Password = "password") :
    ∃ status body, loginHandler lib now1 now2 r =
      .responded status body [.sign (loginClaims "user" now1 now2)] := by
  cases hs : lib.signedString (loginClaims "user" now1 now2) jwtKey with
  | error e => exact ⟨500, .text "Could not create token", by
      simp only [loginHandler, hbody, h, and_self, if_true, hs]⟩
  | ok tok => exact ⟨200, .token tok, loginHandler_match lib now1 now2 r a hbody h tok hs⟩

/-- C2: for every decodable login body, `loginHandler` responds 200 with a non-empty
token if and only if the username is exactly `"user"` and the password exactly
`"password"` (the token library signing, as HS256 does, any claims into a
non-empty string): in that case the token is the one the library signed from the
claims of this login, and for every other pair the response is 401
`Unauthorized`, carries no token, and nothing was signed. -/
theorem loginHandler_credentials (lib : JwtLib) (now1 now2 : Int)
    (r : Request (Option AuthRequest)) (a : AuthRequest) (hbody : r.body = some a)
    (hsign : ∀ c, ∃ tok, tok ≠ [] ∧ lib.signedString c jwtKey = .ok tok) :
    ((∃ tok calls, tok ≠ [] ∧
        loginHandler lib now1 now2 r = .responded 200 (.token tok) calls) ↔
      (a.Username = "user" ∧ a.Password = "password")) ∧
    (a.Username = "user" ∧ a.Password = "password" →
      ∃ tok, tok ≠ [] ∧
        lib.signedString (loginClaims "user" now1 now2) jwtKey = .ok tok ∧
        loginHandler lib now1 now2 r =
          .responded 200 (.token tok) [.sign (loginClaims "user" now1 now2)]) ∧
    (¬ (a.Username = "user" ∧ a.Password = "password") →
      loginHandler lib now1 now2 r = .responded 401 (.text "Unauthorized") []) := by
  have hyes : a.Username = "user" ∧ a.Password = "password" →
      ∃ tok, tok ≠ [] ∧
        lib.signedString (loginClaims "user" now1 now2) jwtKey = .ok tok ∧
        loginHandler lib now1 now2 r =
          .responded 200 (.token tok) [.sign (loginClaims "user" now1 now2)] := by
    intro h
    obtain ⟨tok, hne, hs⟩ := hsign (loginClaims "user" now1 now2)
    exact ⟨tok, hne, hs, loginHandler_match lib now1 now2 r a hbody h tok hs⟩
  refine ⟨⟨?_, ?_⟩, hyes, loginHandler_mismatch lib now1 now2 r a hbody⟩
  · rintro ⟨tok, calls, -, h⟩
    by_contra hc
    rw [loginHandler_mismatch lib now1 now2 r a hbody hc] at h
    simp at h
  · intro h
    obtain ⟨tok, hne, -, hr⟩ := hyes h
    exact ⟨tok, _, hne, hr⟩

/-- C2 at the bodies `user`/`password` and `user`/`wrong`, signing with the token
codec. -/
theorem loginHandler_credentials_witness :
    (∃ tok, tok ≠ [] ∧
      (specLib (tableCodec [sampleClaims])).signedString
        (loginClaims "user" 1700000000500000000 1700000000600000000) jwtKey = .ok tok ∧
      loginHandler (specLib (tableCodec [sampleClaims])) 1700000000500000000 1700000000600000000
          (loginRequest "user" "password") =
        .responded 200 (.token tok)
          [.sign (loginClaims "user" 1700000000500000000 1700000000600000000)]) ∧
    loginHandler (specLib (tableCodec [sampleClaims])) 1700000000500000000 1700000000600000000
        (loginRequest "user" "wrong") = .responded 401 (.text "Unauthorized") [] :=
  ⟨(loginHandler_credentials (specLib (tableCodec [sampleClaims])) 1700000000500000000
      1700000000600000000 (loginRequest "user" "password") ⟨"user", "password"⟩ rfl
      (fun c => specLib_signs _ c jwtKey)).2.1 (by decide),
    (loginHandler_credentials (specLib (tableCodec [sampleClaims])) 1700000000500000000
      1700000000600000000 (loginRequest "user" "wrong") ⟨"user", "wrong"⟩ rfl
      (fun c => specLib_signs _ c jwtKey)).2.2 (by decide)⟩

/-- The two timestamps of a login differ by 30 minutes less the whole seconds that
passed between the two clock reads. -/
theorem loginClaims_expiry (username : String) (now1 now2 : Int) :
    (loginClaims username now1 now2).ExpiresAt =
      (loginClaims username now1 now2).IssuedAt + 1800 - (now2 / second - now1 / second) := by
  simp only [loginClaims, NewNumericDate, second]
  omega

/-- When both clock reads of a login fall in the same second, the token expires 30
minutes after it was issued. -/
theorem loginClaims_same_second (username : String) (now1 now2 : Int)
    (h : now1 / second = now2 / second) :
    (loginClaims username now1 now2).ExpiresAt =
      (loginClaims username now1 now2).IssuedAt + 1800 := by
  rw [loginClaims_expiry, h]
  omega

/-- C4 fails on the code: with the first clock read at 1700000000.999999999 s and
the second at 1700000001.000000000 s (one nanosecond later), the successful login
signs claims with `ExpiresAt = 1700001800` and `IssuedAt = 1700000001`, which is
1799 seconds apart, not 1800, whatever the token library answers. -/
theorem loginHandler_two_clock_reads (lib : JwtLib) :
    (1700000000999999999 : Int) ≤ 1700000001000000000 ∧
    loginClaims "user" 1700000000999999999 1700000001000000000 = ⟨"user", "user", 1700001800, 1700000001⟩ ∧
    (∃ status body,
      loginHandler lib 1700000000999999999 1700000001000000000 (loginRequest "user" "password") =
        .responded status body [.sign ⟨"user", "user", 1700001800, 1700000001⟩]) ∧
    (loginClaims "user" 1700000000999999999 1700000001000000000).ExpiresAt ≠
      (loginClaims "user" 1700000000999999999 1700000001000000000).IssuedAt + 1800 := by
  have hc : loginClaims "user" 1700000000999999999 1700000001000000000 = ⟨"user", "user", 1700001800, 1700000001⟩ := by decide
  refine ⟨by decide, hc, ?_, by decide⟩
  rw [← hc]
  exact loginHandler_signs lib 1700000000999999999 1700000001000000000 (loginRequest "user" "password")
    ⟨"user", "password"⟩ rfl (by decide)

/-! ## `tokenValidMiddleware` -/

/-- A request without `Authorization` header (or with an empty one) is answered 401
and the next handler is not run. -/
theorem tokenValidMiddleware_missing {β : Type} (lib : JwtLib) (now : Int)
    (next : Request β → Outcome) (r : Request β)
    (h : r.header.Get (str "Authorization") = []) :
    tokenValidMiddleware lib now next r =
      .responded 401 (.text "Missing authorization header") [] := by
  simp only [tokenValidMiddleware, h, if_true]

/-- A header of 1 to 6 bytes makes the middleware panic at the slice. -/
theorem tokenValidMiddleware_short {β : Type} (lib : JwtLib) (now : Int)
    (next : Request β → Outcome) (r : Request β)
    (h1 : r.header.Get (str "Authorization") ≠ [])
    (h2 : (r.header.Get (str "Authorization")).length < 7) :
    tokenValidMiddleware lib now next r = .panicked := by
  have h7 : (str "Bearer ").length = 7 := by decide
  simp only [tokenValidMiddleware, h1, if_false, h7, h2, if_true]

/-- The middleware never looks at the first 7 bytes of the header: what it does
with `scheme ++ token` is decided by `token` alone. -/
theorem tokenValidMiddleware_scheme {β : Type} (lib : JwtLib) (now : Int)
    (next : Request β → Outcome) (r : Request β) (scheme token : GoString)
    (hs : scheme.length = 7)
    (h : r.header.Get (str "Authorization") = scheme ++ token) :
    tokenValidMiddleware lib now next r =
      match lib.parseWithClaims token jwtKey now with
      | .error _ => .responded 401 (.text "Invalid token") []
      | .ok (_, valid) =>
        if ¬ valid then .responded 401 (.text "Invalid token") [] else next r := by
  have h7 : (str "Bearer ").length = 7 := by decide
  have hne : scheme ++ token ≠ [] := by
    intro h0
    have := congrArg List.length h0
    simp only [List.length_append, List.length_nil] at this
    omega
  have hlen : ¬ ((scheme ++ token).length < 7) := by
    rw [List.length_append]
    omega
  have hdrop : (scheme ++ token).drop 7 = token := by
    rw [← hs]
    exact List.drop_left _ _
  simp only [tokenValidMiddleware, h, hne, if_false, h7, hlen, hdrop]

/-- A token the codec verifies is forwarded, whatever 7 bytes precede it. -/
theorem tokenValidMiddleware_forward {β : Type} (P : CodecParams) (now : Int)
    (next : Request β → Outcome) (r : Request β) (scheme token : GoString) (c : Claims)
    (hs : scheme.length = 7)
    (h : r.header.Get (str "Authorization") = scheme ++ token)
    (hv : verify P token jwtKey now = .ok c) :
    tokenValidMiddleware (specLib P) now next r = next r := by
  rw [tokenValidMiddleware_scheme (specLib P) now next r scheme token hs h]
  simp [specLib, hv]

/-- C1 fails on the code, whatever the library, the clock and the next handler.
With the header `Authorization: abc` (non-empty, shorter than 7 bytes) the
middleware panics: no 401 is written.  With the header `XXXXXXX` followed by any
token (7 or more bytes, not beginning with `"Bearer "`) the middleware does not
answer 401 for the missing scheme: it drops the 7 bytes unread, and forwards the
request to the next handler when the library accepts the token. -/
theorem tokenValidMiddleware_bearer_unchecked (lib : JwtLib) (now : Int)
    (next : Request Unit → Outcome) (token : GoString) :
    tokenValidMiddleware lib now next (authRequest (str "abc")) = .panicked ∧
    (str "XXXXXXX" ++ token).take 7 ≠ str "Bearer " ∧
    tokenValidMiddleware lib now next (authRequest (str "XXXXXXX" ++ token)) =
      (match lib.parseWithClaims token jwtKey now with
      | .error _ => .responded 401 (.text "Invalid token") []
      | .ok (_, valid) =>
        if ¬ valid then .responded 401 (.text "Invalid token") []
        else next (authRequest (str "XXXXXXX" ++ token))) := by
  refine ⟨tokenValidMiddleware_short lib now next _ (by decide) (by decide), ?_, ?_⟩
  · have hx : str "XXXXXXX" = [88, 88, 88, 88, 88, 88, 88] := by decide
    have hb : str "Bearer " = [66, 101, 97, 114, 101, 114, 32] := by decide
    rw [hx, hb]
    simp
  · exact tokenValidMiddleware_scheme lib now next _ (str "XXXXXXX") token (by decide)
      (by simp [authRequest, singleQuery, Values.Get])

/-- The bypass of the scheme check, on a token of the codec: the header `XXXXXXX`
followed by a token issued one second earlier is forwarded. -/
theorem tokenValidMiddleware_forwards_other_scheme (next : Request Unit → Outcome) :
    tokenValidMiddleware (specLib (tableCodec [sampleClaims])) 1700000001000000000 next
        (authRequest (str "XXXXXXX" ++ issue (tableCodec [sampleClaims]) sampleClaims jwtKey)) =
      next (authRequest
        (str "XXXXXXX" ++ issue (tableCodec [sampleClaims]) sampleClaims jwtKey)) :=
  tokenValidMiddleware_forward (tableCodec [sampleClaims]) 1700000001000000000 next _
    (str "XXXXXXX") (issue (tableCodec [sampleClaims]) sampleClaims jwtKey) sampleClaims
    (by decide) (by simp [authRequest, singleQuery, Values.Get])
    (verify_issue _ _ _ _ (by decide) (by decide) (by decide))


/-! ## The round trip of a token through `loginHandler` and `tokenValidMiddleware` -/

theorem authRequest_Get (authorization : GoString) :
    (authRequest authorization).header.Get (str "Authorization") = authorization := by
  simp [authRequest, singleQuery, Values.Get]

/-- A token the codec refuses is answered 401 and the next handler is not run,
whatever 7 bytes precede it. -/
theorem tokenValidMiddleware_refuse {β : Type} (P : CodecParams) (now : Int)
    (next : Request β → Outcome) (r : Request β) (scheme token : GoString) (e : TokenError)
    (hs : scheme.length = 7)
    (h : r.header.Get (str "Authorization") = scheme ++ token)
    (hv : verify P token jwtKey now = .error e) :
    tokenValidMiddleware (specLib P) now next r =
      .responded 401 (.text "Invalid token") [] := by
  rw [tokenValidMiddleware_scheme (specLib P) now next r scheme token hs h]
  simp [specLib, hv]

/-- The `IssuedAt` of a login is not later than any clock reading that follows the
login. -/
theorem loginClaims_issuedAt_le (username : String) (now1 now2 now : Int) (h : now2 ≤ now) :
    (loginClaims username now1 now2).IssuedAt * second ≤ now := by
  simp only [loginClaims, NewNumericDate, second] at *
  omega

/-- The token of a login is forwarded by the middleware at every later clock reading
before it expires, the clock not running backwards. -/
theorem login_token_forwarded {β : Type} (K : Codec) (now1 now2 now : Int)
    (next : Request β → Outcome) (r : Request β)
    (hclock : now2 ≤ now)
    (hexp : now < (loginClaims "user" now1 now2).ExpiresAt * second)
    (hauth : r.header.Get (str "Authorization") =
      str "Bearer " ++ issue K.toCodecParams (loginClaims "user" now1 now2) jwtKey) :
    loginHandler (specLib K.toCodecParams) now1 now2 (loginRequest "user" "password") =
      .responded 200 (.token (issue K.toCodecParams (loginClaims "user" now1 now2) jwtKey))
        [.sign (loginClaims "user" now1 now2)] ∧
    tokenValidMiddleware (specLib K.toCodecParams) now next r = next r :=
  ⟨loginHandler_match (specLib K.toCodecParams) now1 now2 _ ⟨"user", "password"⟩ rfl
      (by decide) _ rfl,
    tokenValidMiddleware_forward K.toCodecParams now next r (str "Bearer ") _ _ (by decide)
      hauth (verify_issue _ _ _ _ (K.decode_encode _) hexp
        (loginClaims_issuedAt_le "user" now1 now2 now hclock))⟩

/-- C3 fails: claims that expire an hour after the verification time but are stamped
as issued half an hour after it satisfy the premise of the claim, and yet the
token signed from them, sent as `"Bearer " + token`, is refused: verification
fails with "used before issued", the middleware answers 401 and `getUsers`, which
would have answered 200, is not run. -/
theorem token_round_trip_counterexample :
    (1700000000000000000 : Int) < futureClaims.ExpiresAt * second ∧
    verify numberCodec.toCodecParams (issue numberCodec.toCodecParams futureClaims jwtKey)
      jwtKey 1700000000000000000 = .error .usedBeforeIssued ∧
    tokenValidMiddleware (specLib numberCodec.toCodecParams) 1700000000000000000
        (getUsers (listSelect (sampleRows 1)))
        (authRequest (str "Bearer " ++ issue numberCodec.toCodecParams futureClaims jwtKey)) =
      .responded 401 (.text "Invalid token") [] ∧
    getUsers (listSelect (sampleRows 1))
        (authRequest (str "Bearer " ++ issue numberCodec.toCodecParams futureClaims jwtKey)) =
      .responded 200 (.users (sampleRows 1)) [.select ⟨none, none, 0, 10⟩] := by
  have hv := verify_issue_early numberCodec.toCodecParams futureClaims jwtKey
    1700000000000000000 (numberCodec.decode_encode _) (by decide) (by decide)
  refine ⟨by decide, hv, ?_, ?_⟩
  · exact tokenValidMiddleware_refuse _ _ _ _ (str "Bearer ") _ _ (by decide)
      (authRequest_Get _) hv
  · exact (getUsers_outcome _ _).1 _ rfl

/-- C3 as amended: for every claims value whose `expiresAt` is later than the
verification time and whose `issuedAt` is not later than it, the token that
`loginHandler` issues by signing those claims under `jwtKey` is accepted by the
verification of `tokenValidMiddleware` under the same key when sent as
`"Bearer " + token`: the decoded claims are the issued claims, the token is valid
and the request is forwarded to the next handler.  The forwarding is the
verification's doing: whatever the library, the middleware hands it the header
without its first 7 bytes and forwards exactly when it returns a valid token,
answering 401 otherwise; so the same request is answered 401, the next handler
not run, once the token has expired, and before the second it was issued in. -/
theorem token_round_trip {β : Type} (K : Codec) (c : Claims) (now : Int)
    (next : Request β → Outcome) (r : Request β)
    (hexp : now < c.ExpiresAt * second) (hiat : c.IssuedAt * second ≤ now)
    (hauth : r.header.Get (str "Authorization") =
      str "Bearer " ++ issue K.toCodecParams c jwtKey) :
    (specLib K.toCodecParams).signedString c jwtKey = .ok (issue K.toCodecParams c jwtKey) ∧
    (∀ now1 now2, c = loginClaims "user" now1 now2 →
      loginHandler (specLib K.toCodecParams) now1 now2 (loginRequest "user" "password") =
        .responded 200 (.token (issue K.toCodecParams c jwtKey)) [.sign c]) ∧
    verify K.toCodecParams (issue K.toCodecParams c jwtKey) jwtKey now = .ok c ∧
    (specLib K.toCodecParams).parseWithClaims (issue K.toCodecParams c jwtKey) jwtKey now =
      .ok (c, true) ∧
    tokenValidMiddleware (specLib K.toCodecParams) now next r = next r ∧
    (∀ (lib : JwtLib) (token : GoString) (r2 : Request β),
      r2.header.Get (str "Authorization") = str "Bearer " ++ token →
      tokenValidMiddleware lib now next r2 =
        match lib.parseWithClaims token jwtKey now with
        | .error _ => .responded 401 (.text "Invalid token") []
        | .ok (_, valid) =>
          if ¬ valid then .responded 401 (.text "Invalid token") [] else next r2) ∧
    (∀ later, c.ExpiresAt * second ≤ later →
      tokenValidMiddleware (specLib K.toCodecParams) later next r =
        .responded 401 (.text "Invalid token") []) ∧
    (∀ earlier, earlier < c.IssuedAt * second →
      tokenValidMiddleware (specLib K.toCodecParams) earlier next r =
        .responded 401 (.text "Invalid token") []) := by
  have hdec := K.decode_encode c
  have hv := verify_issue K.toCodecParams c jwtKey now hdec hexp hiat
  have h7 : (str "Bearer ").length = 7 := by decide
  refine ⟨rfl, ?_, hv, by simp [specLib, hv], ?_, ?_, ?_, ?_⟩
  · intro now1 now2 hc
    rw [hc]
    exact loginHandler_match (specLib K.toCodecParams) now1 now2 _ ⟨"user", "password"⟩ rfl
      (by decide) _ rfl
  · exact tokenValidMiddleware_forward K.toCodecParams now next r (str "Bearer ") _ c h7 hauth hv
  · intro lib token r2 h2
    exact tokenValidMiddleware_scheme lib now next r2 (str "Bearer ") token h7 h2
  · intro later hlater
    exact tokenValidMiddleware_refuse K.toCodecParams later next r (str "Bearer ") _ _ h7 hauth
      (verify_issue_expired K.toCodecParams c jwtKey later hdec hlater)
  · intro earlier hearly
    have hexp2 : earlier < c.ExpiresAt * second := by omega
    exact tokenValidMiddleware_refuse K.toCodecParams earlier next r (str "Bearer ") _ _ h7 hauth
      (verify_issue_early K.toCodecParams c jwtKey earlier hdec hexp2 hearly)

/-- C3 as amended, for the token of a login presented half a second later in front
of `getUsers`: it verifies to the claims of the login and `getUsers` answers; one
hour later the same request is answered 401. -/
theorem token_round_trip_witness :
    verify numberCodec.toCodecParams (issue numberCodec.toCodecParams sampleClaims jwtKey)
      jwtKey 1700000001000000000 = .ok sampleClaims ∧
    tokenValidMiddleware (specLib numberCodec.toCodecParams) 1700000001000000000
        (getUsers (listSelect (sampleRows 1)))
        (authRequest (str "Bearer " ++ issue numberCodec.toCodecParams sampleClaims jwtKey)) =
      getUsers (listSelect (sampleRows 1))
        (authRequest (str "Bearer " ++ issue numberCodec.toCodecParams sampleClaims jwtKey)) ∧
    tokenValidMiddleware (specLib numberCodec.toCodecParams) 1700003601000000000
        (getUsers (listSelect (sampleRows 1)))
        (authRequest (str "Bearer " ++ issue numberCodec.toCodecParams sampleClaims jwtKey)) =
      .responded 401 (.text "Invalid token") [] :=
  have h := token_round_trip numberCodec sampleClaims 1700000001000000000
    (getUsers (listSelect (sampleRows 1)))
    (authRequest (str "Bearer " ++ issue numberCodec.toCodecParams sampleClaims jwtKey))
    (by decide) (by decide) (authRequest_Get _)
  ⟨h.2.2.1, h.2.2.2.2.1, h.2.2.2.2.2.2.1 1700003601000000000 (by decide)⟩

end LabaGo9
